import Mathlib

/-!
Shallow embedding of the core of the pathfinder p2p block-synchronization
engine, together with proofs about the properties of its components.

Components embedded here (with the Rust source they are translated from):
* `Pedersen`      — `crates/pedersen/src/lib.rs` (`StarkHash` byte/bit codecs)
* `HeadersSync`   — `crates/pathfinder/src/sync/headers.rs`
  (`ForwardContinuity`, `BackwardContinuity`, `next_gap`)
* `PeerDirectory` — `crates/p2p/src/client/peer_agnostic.rs`
  (`PeersWithCapability` and the cached capability lookup)
* `TxEngine`      — `make_transaction_stream` in the same file
* `StateDiffEngine` — the per-response body of `make_state_diff_stream`
* `EvEngine`      — `make_event_stream`
* `HdrEngine`     — `Client::header_stream`

Modelling conventions, used throughout:
* machine integers (`u64`, `usize`, `u8`) are `Nat`; all arithmetic the code
  performs is far below any overflow boundary except where `checked_sub` is
  modelled explicitly;
* opaque 251-bit field elements (hashes, commitments, addresses, payloads)
  are `Nat`;
* a peer's response channel is a finite list of already-decoded responses; a
  list ending without a `fin` marker models a peer that closed the connection
  without sending the `Fin` sentinel.  DTO decoding
  (`TransactionVariant::try_from_dto` and friends) is modelled as infallible:
  responses enter the model already decoded, since the claims under study
  concern the counting and rotation logic, not the wire codecs;
* the outer `loop` that refreshes the peer set forever is modelled by a
  finite supply of peer sessions; exhausting the supply is reported as the
  distinguished outcome `noPeers` (the real code would keep polling);
* `HashMap`/`HashSet` are association lists / lists with last-write-wins
  insertion.
-/

namespace Pedersen

/-- Error returned by the byte/bit constructors of `StarkHash` when more than
the allowed 251 bits are set (`OverflowError` in the Rust source). -/
inductive OverflowError where
  | mk
deriving DecidableEq, Repr

/-- The MSB-first bit view of a single byte, as produced by
`bitvec`'s `view_bits::<Msb0>()` on one `u8`. -/
def byteBits (b : Nat) : List Bool :=
  [b.testBit 7, b.testBit 6, b.testBit 5, b.testBit 4,
   b.testBit 3, b.testBit 2, b.testBit 1, b.testBit 0]

/-- The MSB-first bit view of a big-endian byte string
(`bytes.view_bits::<Msb0>()`). -/
def bytesBits (bytes : List Nat) : List Bool :=
  (bytes.map byteBits).flatten

/-- Recomposes one byte from its MSB-first bit list. -/
def byteVal (bits : List Bool) : Nat :=
  bits.foldl (fun a b => 2 * a + (if b then 1 else 0)) 0

/-- Packs an MSB-first bit string back into bytes, eight bits at a time
(the effect of `copy_from_bitslice` into a byte buffer). -/
def bitsToBytes : List Bool → List Nat
  | b7 :: b6 :: b5 :: b4 :: b3 :: b2 :: b1 :: b0 :: rest =>
      byteVal [b7, b6, b5, b4, b3, b2, b1, b0] :: bitsToBytes rest
  | [] => []
  | l => [byteVal l]

/-- A `StarkHash` is a 32-byte big-endian array; we carry the byte list
directly.  `WfBytes32` is the representation invariant of `[u8; 32]`. -/
def WfBytes32 (bytes : List Nat) : Prop :=
  bytes.length = 32 ∧ ∀ b ∈ bytes, b < 256

/-- `StarkHash::from_be_bytes`: accepts the byte string iff the leading byte
is at most `0b0000_0111`, i.e. iff the top 5 bits are clear. -/
def from_be_bytes (bytes : List Nat) : Except OverflowError (List Nat) :=
  if bytes.headD 0 ≤ 7 then .ok bytes else .error .mk

/-- `StarkHash::view_bits`: the 251 least significant bits in MSB order,
obtained by dropping the top 5 bits of the 256-bit view. -/
def view_bits (bytes : List Nat) : List Bool :=
  (bytesBits bytes).drop 5

/-- `StarkHash::from_bits`: rejects more than 251 bits, otherwise places the
bits at the low end of a zeroed 32-byte buffer
(`bytes.view_bits_mut()[256 - bits.len()..].copy_from_bitslice(bits)`). -/
def from_bits (bits : List Bool) : Except OverflowError (List Nat) :=
  if bits.length > 251 then .error .mk
  else .ok (bitsToBytes (List.replicate (256 - bits.length) false ++ bits))

end Pedersen

namespace HeadersSync

/-- Modelled from the spec: `BlockNumber::parent()` of `pathfinder_common`
(the crate itself is not part of the sources under study) — the predecessor
block number, `none` at genesis ("`expected_number = expected_number.parent()`
(none at genesis)", "genesis.parent() saturates to default"). -/
def parent (n : Nat) : Option Nat :=
  if n = 0 then none else some (n - 1)

/-- The error kind produced by the continuity stages (`SyncError2`); only the
variant these stages produce is modelled. -/
inductive SyncError2 where
  | Discontinuity
deriving DecidableEq, Repr

/-- The part of a `SignedBlockHeader` inspected by the continuity stages:
`header.number`, `header.hash`, `header.parent_hash`.  The remaining fields
are never read by `ForwardContinuity::map` / `BackwardContinuity::map` and are
omitted. -/
structure SBHeader where
  number : Nat
  hash : Nat
  parent_hash : Nat
deriving DecidableEq, Repr

/-- `ForwardContinuity` holds the expected next number and the hash the next
header must name as its parent. -/
structure ForwardContinuity where
  next : Nat
  parent_hash : Nat
deriving DecidableEq, Repr

/-- `ForwardContinuity::map`: the Rust method mutates `self` and returns a
`Result`; we return the result together with the post state (unchanged on
error, since the Rust method returns early before mutating). -/
def ForwardContinuity.map (s : ForwardContinuity) (input : SBHeader) :
    Except SyncError2 SBHeader × ForwardContinuity :=
  if input.number ≠ s.next ∨ input.parent_hash ≠ s.parent_hash then
    (.error .Discontinuity, s)
  else
    (.ok input, ⟨s.next + 1, input.hash⟩)

/-- `BackwardContinuity` holds the expected number (`none` once genesis has
been consumed) and the expected hash. -/
structure BackwardContinuity where
  number : Option Nat
  hash : Nat
deriving DecidableEq, Repr

/-- `BackwardContinuity::map`, with the same result-and-post-state reading as
`ForwardContinuity.map`. -/
def BackwardContinuity.map (s : BackwardContinuity) (input : SBHeader) :
    Except SyncError2 SBHeader × BackwardContinuity :=
  match s.number with
  | none => (.error .Discontinuity, s)
  | some n =>
      if input.number ≠ n ∨ input.hash ≠ s.hash then
        (.error .Discontinuity, s)
      else
        (.ok input, ⟨parent n, input.parent_hash⟩)

/-- A stored block header, as far as the gap finder reads it: its hash and
its parent hash. -/
structure StoredHeader where
  hash : Nat
  parent_hash : Nat
deriving DecidableEq, Repr

/-- Local header storage: an association list from block number to header
(the storage collaborator behind `block_exists` / `block_header`). -/
def Storage := List (Nat × StoredHeader)

/-- Modelled from the spec: the storage contract's `block_header` query. -/
def block_header (s : Storage) (n : Nat) : Option StoredHeader :=
  (List.find? (fun p => p.1 = n) s).map (fun p => p.2)

/-- Modelled from the spec: the storage contract's `block_exists` query. -/
def block_exists (s : Storage) (n : Nat) : Bool :=
  (block_header s n).isSome

/-- Modelled from the spec: the storage contract's
`next_ancestor_without_parent` query — searching downward from `n`, the
nearest stored block whose parent block is missing, together with its header
(the Rust query returns the number and the caller re-fetches the header; the
fetch cannot fail, so we return the header directly).  Never returns genesis,
matching the source's `expect("next_ancestor_without_parent() cannot return
genesis")`. -/
def next_ancestor_without_parent (s : Storage) : Nat → Option (Nat × StoredHeader)
  | 0 => none
  | k + 1 =>
      match block_header s (k + 1) with
      | some h =>
          if block_exists s k then next_ancestor_without_parent s k
          else some (k + 1, h)
      | none => next_ancestor_without_parent s k

/-- Modelled from the spec: the storage contract's `next_ancestor` query —
the nearest stored block at or below `n` (the gap finder only calls it at a
number known to be missing, so at-or-below versus strictly-below is not
observable), with its hash. -/
def next_ancestor (s : Storage) : Nat → Option (Nat × Nat)
  | 0 => (block_header s 0).map (fun h => (0, h.hash))
  | k + 1 =>
      match block_header s (k + 1) with
      | some h => some (k + 1, h.hash)
      | none => next_ancestor s k

/-- Describes a gap in the stored headers; both `head` and `tail` are part of
the gap (inclusive range). -/
structure HeaderGap where
  head : Nat
  head_hash : Nat
  tail : Nat
  tail_parent_hash : Nat
deriving DecidableEq, Repr

/-- `next_gap`: returns the first gap in the stored headers, searching from
`(head, head_hash)` backwards; `none` when no header is missing.  The
`BlockHash::ZERO` placeholder for a genesis tail is the literal `0`. -/
def next_gap (s : Storage) (head : Nat) (head_hash : Nat) : Option HeaderGap :=
  let headPart : Option (Nat × Nat) :=
    if block_exists s head then
      match next_ancestor_without_parent s head with
      | none => none
      | some (g, ghdr) => some (g - 1, ghdr.parent_hash)
    else
      some (head, head_hash)
  match headPart with
  | none => none
  | some (h, hh) =>
      match next_ancestor s h with
      | some (t, th) => some ⟨h, hh, t + 1, th⟩
      | none => some ⟨h, hh, 0, 0⟩

end HeadersSync

namespace PeerDirectory

/-- Last-write-wins insertion into an association list, the effect of
`HashMap::insert`. -/
def mapInsert (m : List (String × List Nat)) (k : String) (v : List Nat) :
    List (String × List Nat) :=
  if m.any (fun p => p.1 = k) then
    m.map (fun p => if p.1 = k then (k, v) else p)
  else
    m ++ [(k, v)]

/-- Association-list lookup, the effect of `HashMap::get`. -/
def mapLookup (m : List (String × List Nat)) (k : String) : Option (List Nat) :=
  (List.find? (fun p => p.1 = k) m).map (fun p => p.2)

/-- `PeersWithCapability`: the capability cache of the peer-agnostic client.
`Instant` is modelled as a `Nat` timestamp and `Duration` as a `Nat`; note
that the Rust struct holds one `last_update` for the whole map, not one per
capability. -/
structure PeersWithCapability where
  set : List (String × List Nat)
  last_update : Nat
  timeout : Nat
deriving DecidableEq, Repr

/-- `PeersWithCapability::new`. -/
def PeersWithCapability.new (timeout : Nat) : PeersWithCapability :=
  ⟨[], 0, timeout⟩

/-- `Default for PeersWithCapability`: a 60 second timeout. -/
def PeersWithCapability.default : PeersWithCapability :=
  PeersWithCapability.new 60

/-- `PeersWithCapability::get` at time `now`: `None` when
`last_update.elapsed() > timeout`, the cached entry otherwise. -/
def PeersWithCapability.get (s : PeersWithCapability) (capability : String)
    (now : Nat) : Option (List Nat) :=
  if now - s.last_update > s.timeout then none else mapLookup s.set capability

/-- `PeersWithCapability::update` at time `now`: refreshes `last_update` and
replaces the one capability's entry. -/
def PeersWithCapability.update (s : PeersWithCapability) (capability : String)
    (peers : List Nat) (now : Nat) : PeersWithCapability :=
  { s with last_update := now, set := mapInsert s.set capability peers }

/-- `Client::get_update_peers_with_sync_capability` at time `now`: on a cache
hit return the cached set, otherwise fetch the providers from transport
(`fetched`), drop the node's own id, cache and return.  The trailing uniform
shuffle is omitted: it only permutes the returned list and no property under
study concerns the order. -/
def get_update_peers_with_sync_capability (s : PeersWithCapability)
    (capability : String) (now : Nat) (fetched : List Nat) (ownId : Nat) :
    List Nat × PeersWithCapability :=
  match s.get capability now with
  | some peers => (peers, s)
  | none =>
      let peers := fetched.erase ownId
      (peers, s.update capability peers now)

end PeerDirectory

namespace TxEngine

/-- One decoded item of the transactions response channel
(`TransactionsResponse`): a transaction-with-receipt, modelled as an opaque
payload, or the `Fin` sentinel. -/
inductive Resp where
  | txn (t : Nat)
  | fin
deriving DecidableEq, Repr

/-- One attempt at one peer: the peer id and the responses the peer delivers
before its channel closes.  A list that does not end in `.fin` models a peer
that disconnected without sending `Fin`. -/
structure Session where
  peer : Nat
  responses : List Resp
deriving DecidableEq, Repr

/-- One item yielded by the stream:
`PeerData::new(peer, (UnverifiedTransactionData, block_number))`. -/
structure Yielded where
  peer : Nat
  expected_commitment : Nat
  transactions : List Nat
  block : Nat
deriving DecidableEq, Repr

/-- How a finite run of the engine ended. -/
inductive Outcome where
  /-- `break 'outer` after the final block completed (normal termination). -/
  | finished
  /-- `break 'outer` because a decrement would take the counter below zero. -/
  | overCount
  /-- the auxiliary count stream ended prematurely (the stream yields an
  error item and terminates). -/
  | countsExhausted
  /-- the modelled finite peer supply ran out (the real code keeps polling
  for fresh peers). -/
  | noPeers
deriving DecidableEq, Repr

/-- The observable result of a run: everything yielded, and how it ended. -/
structure RunResult where
  output : List Yielded
  outcome : Outcome
deriving DecidableEq, Repr

/-- The engine state that survives a peer switch: the current block `start`,
the bound `stop`, the unconsumed suffix of the count/commitment stream, the
`current_count_outer` backup (the full count of the current block, `none`
before the first fetch) and `current_commitment`, plus everything yielded so
far. -/
structure EngState where
  start : Nat
  stop : Nat
  counts : List (Nat × Nat)
  current_count_outer : Option Nat
  current_commitment : Nat
  output : List Yielded
deriving DecidableEq, Repr

/-- What processing one session's responses leads to: a `break 'outer` with a
final result, or `continue 'next_peer` with the state the next session starts
from. -/
inductive SessStep where
  | brk (r : RunResult)
  | nextPeer (st : EngState)
deriving DecidableEq, Repr

/-- The `if current_count == 0` block that follows the response match: yield
the completed block (`std::mem::take` empties the commitment and the
accumulator), and when `start < stop` advance to the next block by fetching
the next count and commitment.  Returns the continuation state and the fresh
`(current_count, transactions)` pair, or the final result if the count stream
is exhausted. -/
def yieldAdvance (st : EngState) (peer : Nat) (transactions : List Nat) :
    Except RunResult (EngState × Nat × List Nat) :=
  let st1 : EngState :=
    { st with
      output := st.output ++ [⟨peer, st.current_commitment, transactions, st.start⟩]
      current_commitment := 0 }
  if st1.start < st1.stop then
    match st1.counts with
    | [] => .error ⟨st1.output, .countsExhausted⟩
    | (cnt, cm) :: tl =>
        .ok ({ st1 with
                start := st1.start + 1
                counts := tl
                current_count_outer := some cnt
                current_commitment := cm },
             cnt, [])
  else
    .ok (st1, 0, [])

/-- The `while let Some(response) = responses.next()` loop of
`make_transaction_stream`, for one peer session.  `current_count` and
`transactions` are the loop-local counter and accumulator; reaching the end
of the list is the `Fin missing` path (the peer closed the connection). -/
def runResponses (st : EngState) (peer : Nat) (current_count : Nat)
    (transactions : List Nat) : List Resp → SessStep
  | [] => .nextPeer st
  | .txn t :: rest =>
      match current_count with
      | 0 => .brk ⟨st.output, .overCount⟩
      | c + 1 =>
          let transactions := transactions ++ [t]
          if c = 0 then
            match yieldAdvance st peer transactions with
            | .error r => .brk r
            | .ok (st1, c1, tx1) => runResponses st1 peer c1 tx1 rest
          else
            runResponses st peer c transactions rest
  | .fin :: rest =>
      if current_count = 0 then
        if st.start = st.stop then
          .brk ⟨st.output, .finished⟩
        else
          match yieldAdvance st peer transactions with
          | .error r => .brk r
          | .ok (st1, c1, tx1) => runResponses st1 peer c1 tx1 rest
      else
        .nextPeer st

/-- One iteration of the `'next_peer` loop: restore the counter from
`current_count_outer` (or fetch the count and commitment for the current
block if this is the first peer to reach it), then consume the session's
responses with an empty accumulator. -/
def runSession (st : EngState) (sess : Session) : SessStep :=
  match st.current_count_outer with
  | some backup => runResponses st sess.peer backup [] sess.responses
  | none =>
      match st.counts with
      | [] => .brk ⟨st.output, .countsExhausted⟩
      | (cnt, cm) :: tl =>
          runResponses
            { st with counts := tl, current_count_outer := some cnt,
                      current_commitment := cm }
            sess.peer cnt [] sess.responses

/-- The `'outer` loop over the supply of peer sessions. -/
def runFrom (st : EngState) : List Session → RunResult
  | [] => ⟨st.output, .noPeers⟩
  | sess :: rest =>
      match runSession st sess with
      | .brk r => r
      | .nextPeer st1 => runFrom st1 rest

/-- `make_transaction_stream`, as a function from the scripted peer sessions
and the count/commitment stream to the finite run result.  The body of the
generated stream is guarded by `if start <= stop`. -/
def make_transaction_stream (start stop : Nat) (counts : List (Nat × Nat))
    (sessions : List Session) : RunResult :=
  if start ≤ stop then
    runFrom ⟨start, stop, counts, none, 0, []⟩ sessions
  else
    ⟨[], .finished⟩

/-- Exactness of an output prefix: every yielded block carries exactly the
number of transactions the count stream declared for it. -/
def OutOK (start0 : Nat) (counts0 : List (Nat × Nat)) (out : List Yielded) : Prop :=
  ∀ it ∈ out, start0 ≤ it.block ∧
    (counts0[it.block - start0]?).map Prod.fst = some it.transactions.length

/-- Alignment of an engaged engine state with the original inputs: the
current block is inside the range, the unconsumed count stream is exactly
the suffix for the blocks after the current one, and the backed-up counter
is the full declared count of the current block. -/
def Aligned (start0 : Nat) (counts0 : List (Nat × Nat)) (st : EngState) : Prop :=
  start0 ≤ st.start ∧ st.start ≤ st.stop ∧
  st.counts = counts0.drop (st.start - start0 + 1) ∧
  ∃ b, st.current_count_outer = some b ∧
    (counts0[st.start - start0]?).map Prod.fst = some b

/-- The state of the engine before the first count is fetched. -/
def PreInv (start0 : Nat) (counts0 : List (Nat × Nat)) (st : EngState) : Prop :=
  st.current_count_outer = none ∧ st.start = start0 ∧ st.counts = counts0 ∧
  st.start ≤ st.stop

/-- The session-local invariant tying the loop counter and accumulator to
the current block's declared count: either the counter plus the accumulated
items equals the declared count, or the final block has just been yielded
(counter zero, accumulator emptied, no further block). -/
def LocalOK (start0 : Nat) (counts0 : List (Nat × Nat)) (st : EngState)
    (c : Nat) (txs : List Nat) : Prop :=
  (counts0[st.start - start0]?).map Prod.fst = some (c + txs.length)
  ∨ (c = 0 ∧ txs = [] ∧ st.start = st.stop)

/-- What the invariants guarantee about the outcome of a session step. -/
def StepOK (start0 : Nat) (counts0 : List (Nat × Nat)) : SessStep → Prop
  | .brk r => OutOK start0 counts0 r.output
  | .nextPeer st => Aligned start0 counts0 st ∧ OutOK start0 counts0 st.output

end TxEngine

namespace StateDiffEngine

/-- Rust's `u64::checked_sub` on the `Nat` model: `none` exactly when the
subtraction would underflow. -/
def checked_sub (a b : Nat) : Option Nat :=
  if b ≤ a then some (a - b) else none

/-- The reserved system contract address `ContractAddress::ONE`. -/
def ContractAddressONE : Nat := 1

/-- One `{key, value}` storage write of a `ContractDiff`
(`ContractStoredValue`). -/
structure ContractStoredValue where
  key : Nat
  value : Nat
deriving DecidableEq, Repr

/-- The `ContractDiff` response variant (the ignored `domain` field is
omitted). -/
structure ContractDiff where
  address : Nat
  nonce : Option Nat
  class_hash : Option Nat
  values : List ContractStoredValue
deriving DecidableEq, Repr

/-- The `DeclaredClass` response variant. -/
structure DeclaredClass where
  class_hash : Nat
  compiled_class_hash : Option Nat
deriving DecidableEq, Repr

/-- A countable state-diff response item (`StateDiffsResponse` without the
`Fin` sentinel, which carries no items). -/
inductive Item where
  | contractDiff (d : ContractDiff)
  | declaredClass (d : DeclaredClass)
deriving DecidableEq, Repr

/-- The per-contract accumulator (`state_update::ContractUpdates`): storage
writes, optional nonce, optional class update.  The stream always reports a
class update as `Deploy`, so only the class hash is recorded. -/
structure ContractUpdates where
  storage : List (Nat × Nat)
  nonce : Option Nat
  class_update : Option Nat
deriving DecidableEq, Repr

/-- The empty `ContractUpdates` produced by `Entry::or_default()`. -/
def ContractUpdates.empty : ContractUpdates := ⟨[], none, none⟩

/-- Last-write-wins insertion into a `Nat`-keyed association list
(`HashMap::insert` within a single block). -/
def insertKV {α : Type} (m : List (Nat × α)) (k : Nat) (v : α) : List (Nat × α) :=
  if m.any (fun p => p.1 = k) then
    m.map (fun p => if p.1 = k then (k, v) else p)
  else
    m ++ [(k, v)]

/-- Lookup in a `Nat`-keyed association list. -/
def lookupKV {α : Type} (m : List (Nat × α)) (k : Nat) : Option α :=
  (List.find? (fun p => p.1 = k) m).map (fun p => p.2)

/-- Set insertion (`HashSet::insert`). -/
def insertSet (s : List Nat) (x : Nat) : List Nat :=
  if x ∈ s then s else s ++ [x]

/-- `StateUpdateData`: the per-block state-diff accumulator. -/
structure StateUpdateData where
  system_contract_updates : List (Nat × ContractUpdates)
  contract_updates : List (Nat × ContractUpdates)
  declared_cairo_classes : List Nat
  declared_sierra_classes : List (Nat × Nat)
deriving DecidableEq, Repr

/-- `StateUpdateData::default()`. -/
def StateUpdateData.empty : StateUpdateData := ⟨[], [], [], []⟩

/-- Applies the storage writes of a `ContractDiff` to one contract's
accumulated updates (`values.into_iter().for_each(... storage.insert ...)`). -/
def applyValues (cu : ContractUpdates) (values : List ContractStoredValue) :
    ContractUpdates :=
  { cu with storage := values.foldl (fun s v => insertKV s v.key v.value) cu.storage }

/-- The body of the response match of `make_state_diff_stream` for one
countable item (`StateDiffsResponse::ContractDiff` /
`StateDiffsResponse::DeclaredClass`), given the remaining counter
`current_count` and the block's accumulator.  `none` models the
`checked_sub` failure paths, each of which is a `break 'outer` ("Too many
storage diffs" / "Too many nonce updates" / "Too many deployed contracts" /
"Too many declared classes"); otherwise the new counter and accumulator are
returned.  `Client::state_diff_for_block` runs the same per-item logic with
the `break` replaced by an `IncorrectStateDiffCount` error. -/
def state_diff_item_step (current_count : Nat) (state_diff : StateUpdateData) :
    Item → Option (Nat × StateUpdateData)
  | .contractDiff d =>
      match checked_sub current_count d.values.length with
      | none => none
      | some c1 =>
          if d.address = ContractAddressONE then
            let cu := (lookupKV state_diff.system_contract_updates d.address).getD
              ContractUpdates.empty
            let cu := applyValues cu d.values
            some (c1,
              { state_diff with
                system_contract_updates :=
                  insertKV state_diff.system_contract_updates d.address cu })
          else
            let cu := (lookupKV state_diff.contract_updates d.address).getD
              ContractUpdates.empty
            let cu := applyValues cu d.values
            match d.nonce with
            | some n =>
                match checked_sub c1 1 with
                | none => none
                | some c2 =>
                    let cu := { cu with nonce := some n }
                    match d.class_hash with
                    | some ch =>
                        match checked_sub c2 1 with
                        | none => none
                        | some c3 =>
                            some (c3,
                              { state_diff with
                                contract_updates :=
                                  insertKV state_diff.contract_updates d.address
                                    { cu with class_update := some ch } })
                    | none =>
                        some (c2,
                          { state_diff with
                            contract_updates :=
                              insertKV state_diff.contract_updates d.address cu })
            | none =>
                match d.class_hash with
                | some ch =>
                    match checked_sub c1 1 with
                    | none => none
                    | some c2 =>
                        some (c2,
                          { state_diff with
                            contract_updates :=
                              insertKV state_diff.contract_updates d.address
                                { cu with class_update := some ch } })
                | none =>
                    some (c1,
                      { state_diff with
                        contract_updates :=
                          insertKV state_diff.contract_updates d.address cu })
  | .declaredClass d =>
      let sd :=
        match d.compiled_class_hash with
        | some cch =>
            { state_diff with
              declared_sierra_classes :=
                insertKV state_diff.declared_sierra_classes d.class_hash cch }
        | none =>
            { state_diff with
              declared_cairo_classes :=
                insertSet state_diff.declared_cairo_classes d.class_hash }
      match checked_sub current_count 1 with
      | none => none
      | some c1 => some (c1, sd)

/-- The decrement the spec's limit-accounting rule assigns to one item, as
amended: storage writes always count, a present nonce and a present class
hash count only for addresses other than the reserved `ONE` (whose
`ContractDiff` is routed to `system_contract_updates` with the nonce and
class hash fields ignored), and a declared class counts one. -/
def decrement_of (i : Item) : Nat :=
  match i with
  | .contractDiff d =>
      d.values.length +
        (if d.address = ContractAddressONE then 0
         else
           (if d.nonce.isSome then 1 else 0) +
             (if d.class_hash.isSome then 1 else 0))
  | .declaredClass _ => 1

/-- One decoded item of the state-diffs response channel
(`StateDiffsResponse`). -/
inductive Resp where
  | contractDiff (d : ContractDiff)
  | declaredClass (d : DeclaredClass)
  | fin
deriving DecidableEq, Repr

/-- One attempt at one peer (see `TxEngine.Session`). -/
structure Session where
  peer : Nat
  responses : List Resp
deriving DecidableEq, Repr

/-- One item yielded by the stream:
`PeerData::new(peer, (UnverifiedStateUpdateData, block_number))`. -/
structure Yielded where
  peer : Nat
  expected_commitment : Nat
  state_diff : StateUpdateData
  block : Nat
deriving DecidableEq, Repr

/-- How a finite run of the state-diff engine ended (see
`TxEngine.Outcome`). -/
inductive Outcome where
  | finished
  | overCount
  | countsExhausted
  | noPeers
deriving DecidableEq, Repr

/-- The observable result of a run of the state-diff engine. -/
structure RunResult where
  output : List Yielded
  outcome : Outcome
deriving DecidableEq, Repr

/-- The state-diff engine state that survives a peer switch (the exact
analogue of `TxEngine.EngState`: `make_state_diff_stream` has the same
`current_count_outer` / `current_commitment` structure). -/
structure EngState where
  start : Nat
  stop : Nat
  counts : List (Nat × Nat)
  current_count_outer : Option Nat
  current_commitment : Nat
  output : List Yielded
deriving DecidableEq, Repr

/-- Break with a final result, or move to the next peer session. -/
inductive SessStep where
  | brk (r : RunResult)
  | nextPeer (st : EngState)
deriving DecidableEq, Repr

/-- The `if current_count == 0` block following the response match of
`make_state_diff_stream`: yield the completed block (`std::mem::take`
empties the commitment and the accumulator) and, when `start < stop`,
advance to the next block by fetching the next count and commitment. -/
def yieldAdvance (st : EngState) (peer : Nat) (state_diff : StateUpdateData) :
    Except RunResult (EngState × Nat × StateUpdateData) :=
  let st1 : EngState :=
    { st with
      output := st.output ++ [⟨peer, st.current_commitment, state_diff, st.start⟩]
      current_commitment := 0 }
  if st1.start < st1.stop then
    match st1.counts with
    | [] => .error ⟨st1.output, .countsExhausted⟩
    | (cnt, cm) :: tl =>
        .ok ({ st1 with
                start := st1.start + 1
                counts := tl
                current_count_outer := some cnt
                current_commitment := cm },
             cnt, StateUpdateData.empty)
  else
    .ok (st1, 0, StateUpdateData.empty)

/-- The `while let Some(state_diff_response) = responses.next()` loop of
`make_state_diff_stream` for one peer session.  Countable items run the
per-item body `state_diff_item_step` (whose `none` is the `break 'outer`
over-count path); the `Fin` arm and the channel-close (`Fin missing`) path
are identical to the transaction engine's. -/
def runResponses (st : EngState) (peer : Nat) (current_count : Nat)
    (state_diff : StateUpdateData) : List Resp → SessStep
  | [] => .nextPeer st
  | .contractDiff d :: rest =>
      match state_diff_item_step current_count state_diff (.contractDiff d) with
      | none => .brk ⟨st.output, .overCount⟩
      | some (c1, sd1) =>
          if c1 = 0 then
            match yieldAdvance st peer sd1 with
            | .error r => .brk r
            | .ok (st1, c2, sd2) => runResponses st1 peer c2 sd2 rest
          else
            runResponses st peer c1 sd1 rest
  | .declaredClass d :: rest =>
      match state_diff_item_step current_count state_diff (.declaredClass d) with
      | none => .brk ⟨st.output, .overCount⟩
      | some (c1, sd1) =>
          if c1 = 0 then
            match yieldAdvance st peer sd1 with
            | .error r => .brk r
            | .ok (st1, c2, sd2) => runResponses st1 peer c2 sd2 rest
          else
            runResponses st peer c1 sd1 rest
  | .fin :: rest =>
      if current_count = 0 then
        if st.start = st.stop then
          .brk ⟨st.output, .finished⟩
        else
          match yieldAdvance st peer state_diff with
          | .error r => .brk r
          | .ok (st1, c2, sd2) => runResponses st1 peer c2 sd2 rest
      else
        .nextPeer st

/-- One iteration of the `'next_peer` loop of `make_state_diff_stream`. -/
def runSession (st : EngState) (sess : Session) : SessStep :=
  match st.current_count_outer with
  | some backup =>
      runResponses st sess.peer backup StateUpdateData.empty sess.responses
  | none =>
      match st.counts with
      | [] => .brk ⟨st.output, .countsExhausted⟩
      | (cnt, cm) :: tl =>
          runResponses
            { st with counts := tl, current_count_outer := some cnt,
                      current_commitment := cm }
            sess.peer cnt StateUpdateData.empty sess.responses

/-- The `'outer` loop of `make_state_diff_stream` over the peer-session
supply. -/
def runFrom (st : EngState) : List Session → RunResult
  | [] => ⟨st.output, .noPeers⟩
  | sess :: rest =>
      match runSession st sess with
      | .brk r => r
      | .nextPeer st1 => runFrom st1 rest

/-- `make_state_diff_stream`, as a function from the scripted peer sessions
and the length/commitment stream to the finite run result. -/
def make_state_diff_stream (start stop : Nat) (counts : List (Nat × Nat))
    (sessions : List Session) : RunResult :=
  if start ≤ stop then
    runFrom ⟨start, stop, counts, none, 0, []⟩ sessions
  else
    ⟨[], .finished⟩

/-- The number of countable sub-items recorded in one contract's accumulated
updates: one per stored key, one for a present nonce, one for a present
class update. -/
def cuWeight (cu : ContractUpdates) : Nat :=
  cu.storage.length + (if cu.nonce.isSome then 1 else 0) +
    (if cu.class_update.isSome then 1 else 0)

/-- The total weight of one side of the contract-updates map. -/
def weightMap (m : List (Nat × ContractUpdates)) : Nat :=
  (m.map (fun p => cuWeight p.2)).sum

/-- The number of countable sub-items recorded in a yielded
`StateUpdateData`: storage writes, nonces and class updates over both maps,
plus the declared classes.  Last-write-wins insertion can collapse duplicate
updates, so this can be smaller than the number of sub-items processed. -/
def sdWeight (sd : StateUpdateData) : Nat :=
  weightMap sd.system_contract_updates + weightMap sd.contract_updates +
    sd.declared_cairo_classes.length + sd.declared_sierra_classes.length

/-- The keys of an association list. -/
def keysOf {α : Type} (m : List (Nat × α)) : List Nat :=
  m.map Prod.fst

/-- The accumulator's maps never hold duplicate keys (they are built only by
`insertKV` from empty). -/
def NodupSD (sd : StateUpdateData) : Prop :=
  (keysOf sd.system_contract_updates).Nodup ∧
    (keysOf sd.contract_updates).Nodup

/-- Exactness, weakened to an upper bound, for a state-diff output prefix:
every yielded block's payload records at most the declared number of
sub-items. -/
def OutOK (start0 : Nat) (counts0 : List (Nat × Nat)) (out : List Yielded) :
    Prop :=
  ∀ it ∈ out, start0 ≤ it.block ∧
    ∃ d, (counts0[it.block - start0]?).map Prod.fst = some d ∧
      sdWeight it.state_diff ≤ d

/-- Alignment of an engaged state-diff engine state with the original inputs
(see `TxEngine.Aligned`). -/
def Aligned (start0 : Nat) (counts0 : List (Nat × Nat)) (st : EngState) :
    Prop :=
  start0 ≤ st.start ∧ st.start ≤ st.stop ∧
  st.counts = counts0.drop (st.start - start0 + 1) ∧
  ∃ b, st.current_count_outer = some b ∧
    (counts0[st.start - start0]?).map Prod.fst = some b

/-- The state of the state-diff engine before the first count is fetched. -/
def PreInv (start0 : Nat) (counts0 : List (Nat × Nat)) (st : EngState) :
    Prop :=
  st.current_count_outer = none ∧ st.start = start0 ∧ st.counts = counts0 ∧
  st.start ≤ st.stop

/-- The session-local invariant of the state-diff engine: the accumulator's
weight plus the remaining counter never exceeds the block's declared count
(processing an item decrements the counter by at least the weight it adds). -/
def WOK (start0 : Nat) (counts0 : List (Nat × Nat)) (st : EngState) (c : Nat)
    (sd : StateUpdateData) : Prop :=
  ∃ d, (counts0[st.start - start0]?).map Prod.fst = some d ∧
    c + sdWeight sd ≤ d

/-- What the invariants guarantee about a session step of the state-diff
engine. -/
def StepOK (start0 : Nat) (counts0 : List (Nat × Nat)) : SessStep → Prop
  | .brk r => OutOK start0 counts0 r.output
  | .nextPeer st => Aligned start0 counts0 st ∧ OutOK start0 counts0 st.output

end StateDiffEngine

namespace EvEngine

/-- One decoded item of the events response channel (`EventsResponse`): an
event carrying its transaction hash and an opaque payload, or the `Fin`
sentinel. -/
inductive Resp where
  | event (txn_hash : Nat) (payload : Nat)
  | fin
deriving DecidableEq, Repr

/-- One attempt at one peer (see `TxEngine.Session`). -/
structure Session where
  peer : Nat
  responses : List Resp
deriving DecidableEq, Repr

/-- One item yielded by the stream:
`PeerData::new(peer, (block_number, events-grouped-by-transaction))`. -/
structure Yielded where
  peer : Nat
  block : Nat
  events : List (Nat × List Nat)
deriving DecidableEq, Repr

/-- How a finite run of the events engine ended. -/
inductive Outcome where
  /-- `break 'outer` after the final block was yielded. -/
  | finished
  /-- the `events.last_mut().expect("not empty")` panic fired. -/
  | panicked
  /-- the auxiliary count stream ended prematurely. -/
  | countsExhausted
  /-- the modelled finite peer supply ran out. -/
  | noPeers
deriving DecidableEq, Repr

/-- The observable result of a run of the events engine. -/
structure RunResult where
  output : List Yielded
  outcome : Outcome
deriving DecidableEq, Repr

/-- The events-engine state that survives a peer switch. -/
structure EngState where
  start : Nat
  stop : Nat
  counts : List Nat
  current_count_outer : Option Nat
  output : List Yielded
deriving DecidableEq, Repr

/-- Break with a final result, or move to the next peer session. -/
inductive SessStep where
  | brk (r : RunResult)
  | nextPeer (st : EngState)
deriving DecidableEq, Repr

/-- Appends one event payload to the last transaction group
(`events.last_mut()...1.push(event)`); only called on a non-empty list. -/
def appendToLast (events : List (Nat × List Nat)) (p : Nat) :
    List (Nat × List Nat) :=
  match events with
  | [] => []
  | [g] => [(g.1, g.2 ++ [p])]
  | g :: rest => g :: appendToLast rest p

/-- The number of countable sub-items in the per-block accumulator of the
events engine: one per event, regardless of grouping. -/
def sumEvents (events : List (Nat × List Nat)) : Nat :=
  (events.map (fun g => g.2.length)).sum

/-- The region of `make_event_stream` where `current_count` has reached zero:
yield the completed block, `break 'outer` if it was the final one, otherwise
advance and fetch the next count — repeatedly, while the fetched counts are
themselves zero (each such block is yielded with an empty accumulator,
without touching the response channel).  Arguments are the session's peer,
the engine's `stop`, the current block `start`, the accumulated groups for
the block just completed, everything yielded so far, and the unconsumed count
stream.  Returns the final result on a break, otherwise the new
`(start, counts, current_count, output)` with `current_count > 0`. -/
def yieldLoop (peer stop : Nat) : Nat → List (Nat × List Nat) →
    List Yielded → List Nat → Except RunResult (Nat × List Nat × Nat × List Yielded)
  | start, events, output, [] =>
      let output1 := output ++ [⟨peer, start, events⟩]
      if start = stop then .error ⟨output1, .finished⟩
      else .error ⟨output1, .countsExhausted⟩
  | start, events, output, 0 :: tl =>
      let output1 := output ++ [⟨peer, start, events⟩]
      if start = stop then .error ⟨output1, .finished⟩
      else yieldLoop peer stop (start + 1) [] output1 tl
  | start, events, output, (k + 1) :: tl =>
      let output1 := output ++ [⟨peer, start, events⟩]
      if start = stop then .error ⟨output1, .finished⟩
      else .ok (start + 1, tl, k + 1, output1)

/-- The inner `while current_count > 0` loop of `make_event_stream` for one
peer session, fused with the surrounding `while start <= stop` block loop.
`current_txn_hash` is reset per session but kept across block boundaries
within a session.  Every call site maintains `current_count > 0`; when the
decrement empties the counter the `yieldLoop` region runs before the next
response is consumed. -/
def consume (st : EngState) (peer : Nat) (current_txn_hash : Option Nat)
    (current_count : Nat) (events : List (Nat × List Nat)) :
    List Resp → SessStep
  | [] => .nextPeer st
  | .fin :: _ => .nextPeer st
  | .event h p :: rest =>
      let step : Option (List (Nat × List Nat) × Option Nat) :=
        match current_txn_hash with
        | some x =>
            if x = h then
              match events with
              | [] => none
              | _ => some (appendToLast events p, some x)
            else some (events ++ [(h, [p])], some h)
        | none => some (events ++ [(h, [p])], some h)
      match step with
      | none => .brk ⟨st.output, .panicked⟩
      | some (events1, cth1) =>
          match current_count - 1 with
          | 0 =>
              match yieldLoop peer st.stop st.start events1 st.output st.counts with
              | .error r => .brk r
              | .ok (start1, counts1, c1, output1) =>
                  consume
                    { st with start := start1, counts := counts1,
                              current_count_outer := some c1, output := output1 }
                    peer cth1 c1 [] rest
          | k + 1 => consume st peer cth1 (k + 1) events1 rest

/-- One iteration of the `'next_peer` loop of `make_event_stream`: restore or
fetch the block's count and enter the block loop; a zero count makes the
engine yield blocks before consuming any response. -/
def runSession (st : EngState) (sess : Session) : SessStep :=
  let enter : EngState → Nat → SessStep := fun st1 c =>
    if st1.start ≤ st1.stop then
      if c = 0 then
        match yieldLoop sess.peer st1.stop st1.start [] st1.output st1.counts with
        | .error r => .brk r
        | .ok (start1, counts1, c1, output1) =>
            consume
              { st1 with start := start1, counts := counts1,
                         current_count_outer := some c1, output := output1 }
              sess.peer none c1 [] sess.responses
      else consume st1 sess.peer none c [] sess.responses
    else .brk ⟨st1.output, .finished⟩
  match st.current_count_outer with
  | some backup => enter st backup
  | none =>
      match st.counts with
      | [] => .brk ⟨st.output, .countsExhausted⟩
      | c :: tl =>
          enter { st with counts := tl, current_count_outer := some c } c

/-- The `'outer` loop of `make_event_stream` over the peer-session supply. -/
def runFrom (st : EngState) : List Session → RunResult
  | [] => ⟨st.output, .noPeers⟩
  | sess :: rest =>
      match runSession st sess with
      | .brk r => r
      | .nextPeer st1 => runFrom st1 rest

/-- `make_event_stream`, as a function from the scripted peer sessions and
the count stream to the finite run result. -/
def make_event_stream (start stop : Nat) (counts : List Nat)
    (sessions : List Session) : RunResult :=
  if start ≤ stop then
    runFrom ⟨start, stop, counts, none, []⟩ sessions
  else
    ⟨[], .finished⟩

/-- Exactness of an output prefix of the events engine: every yielded block
carries exactly the number of events the count stream declared for it. -/
def OutOK (start0 : Nat) (counts0 : List Nat) (out : List Yielded) : Prop :=
  ∀ it ∈ out, start0 ≤ it.block ∧
    counts0[it.block - start0]? = some (sumEvents it.events)

/-- Alignment of an engaged events-engine state with the original inputs
(see `TxEngine.Aligned`). -/
def Aligned (start0 : Nat) (counts0 : List Nat) (st : EngState) : Prop :=
  start0 ≤ st.start ∧ st.start ≤ st.stop ∧
  st.counts = counts0.drop (st.start - start0 + 1) ∧
  ∃ b, st.current_count_outer = some b ∧
    counts0[st.start - start0]? = some b

/-- The state of the events engine before the first count is fetched. -/
def PreInv (start0 : Nat) (counts0 : List Nat) (st : EngState) : Prop :=
  st.current_count_outer = none ∧ st.start = start0 ∧ st.counts = counts0 ∧
  st.start ≤ st.stop

/-- What the invariants guarantee about the outcome of a session step of the
events engine. -/
def StepOK (start0 : Nat) (counts0 : List Nat) : SessStep → Prop
  | .brk r => OutOK start0 counts0 r.output
  | .nextPeer st => Aligned start0 counts0 st ∧ OutOK start0 counts0 st.output

end EvEngine

namespace ClassesEngine

/-- One decoded item of the classes response channel (`ClassesResponse`):
a Cairo0 or Cairo1 class body (opaque bytes; the ignored `domain` field is
omitted), or the `Fin` sentinel.  The DTO decoding
(`CairoDefinition::try_from_dto` / `SierraDefinition::try_from_dto`) is
modelled as infallible, as for the other engines. -/
inductive Resp where
  | cairo0 (class_bytes : Nat)
  | cairo1 (class_bytes : Nat)
  | fin
deriving DecidableEq, Repr

/-- One attempt at one peer (see `TxEngine.Session`). -/
structure Session where
  peer : Nat
  responses : List Resp
deriving DecidableEq, Repr

/-- `ClassDefinition` of the client types: a class body tagged with the
block it was declared in. -/
inductive ClassDefinition where
  | Cairo (block_number : Nat) (definition : Nat)
  | Sierra (block_number : Nat) (sierra_definition : Nat)
deriving DecidableEq, Repr

/-- The block a class definition was declared in. -/
def ClassDefinition.block_number : ClassDefinition → Nat
  | .Cairo b _ => b
  | .Sierra b _ => b

/-- One item yielded by the stream: `PeerData::new(peer, class_definition)`
(the classes engine yields each definition of a completed block
individually, in order). -/
structure Yielded where
  peer : Nat
  definition : ClassDefinition
deriving DecidableEq, Repr

/-- How a finite run of the classes engine ended.  The classes engine has no
over-count path: the collect loop requests exactly the declared number of
responses. -/
inductive Outcome where
  | finished
  | countsExhausted
  | noPeers
deriving DecidableEq, Repr

/-- The observable result of a run of the classes engine. -/
structure RunResult where
  output : List Yielded
  outcome : Outcome
deriving DecidableEq, Repr

/-- The classes-engine state that survives a peer switch. -/
structure EngState where
  start : Nat
  stop : Nat
  counts : List Nat
  current_count_outer : Option Nat
  output : List Yielded
deriving DecidableEq, Repr

/-- Break with a final result, or move to the next peer session. -/
inductive SessStep where
  | brk (r : RunResult)
  | nextPeer (st : EngState)
deriving DecidableEq, Repr

/-- The region of `make_class_definition_stream` after a block completes:
`break 'outer` when it was the final block, otherwise fetch the next count —
repeatedly, while the fetched counts are zero (a zero-count block completes
immediately, yielding nothing, without touching the response channel).
Arguments are the engine's `stop`, the just-completed block, everything
yielded so far and the unconsumed count stream; returns the final result on
a break, otherwise the new `(start, counts, current_count, output)` with
`current_count > 0`. -/
def advanceLoop (stop : Nat) : Nat → List Yielded → List Nat →
    Except RunResult (Nat × List Nat × Nat × List Yielded)
  | start, output, [] =>
      if start = stop then .error ⟨output, .finished⟩
      else .error ⟨output, .countsExhausted⟩
  | start, output, 0 :: tl =>
      if start = stop then .error ⟨output, .finished⟩
      else advanceLoop stop (start + 1) output tl
  | start, output, (k + 1) :: tl =>
      if start = stop then .error ⟨output, .finished⟩
      else .ok (start + 1, tl, k + 1, output)

/-- The inner `while current_count > 0` collect loop of
`make_class_definition_stream` for one peer session, fused with the
surrounding `while start <= stop` block loop.  A completed block's
definitions are yielded together (`for class_definition in
class_definitions { yield ... }`); `Fin` inside the collect loop and a
closed channel both move to the next peer, discarding the partial
collection.  Every call site maintains `current_count > 0`. -/
def collect (st : EngState) (peer : Nat) (current_count : Nat)
    (class_definitions : List ClassDefinition) : List Resp → SessStep
  | [] => .nextPeer st
  | .fin :: _ => .nextPeer st
  | .cairo0 b :: rest =>
      let defs := class_definitions ++ [ClassDefinition.Cairo st.start b]
      match current_count - 1 with
      | 0 =>
          let st1 : EngState :=
            { st with output := st.output ++ defs.map (fun d => ⟨peer, d⟩) }
          match advanceLoop st1.stop st1.start st1.output st1.counts with
          | .error r => .brk r
          | .ok (start1, counts1, c1, output1) =>
              collect
                { st1 with start := start1, counts := counts1,
                           current_count_outer := some c1, output := output1 }
                peer c1 [] rest
      | k + 1 => collect st peer (k + 1) defs rest
  | .cairo1 b :: rest =>
      let defs := class_definitions ++ [ClassDefinition.Sierra st.start b]
      match current_count - 1 with
      | 0 =>
          let st1 : EngState :=
            { st with output := st.output ++ defs.map (fun d => ⟨peer, d⟩) }
          match advanceLoop st1.stop st1.start st1.output st1.counts with
          | .error r => .brk r
          | .ok (start1, counts1, c1, output1) =>
              collect
                { st1 with start := start1, counts := counts1,
                           current_count_outer := some c1, output := output1 }
                peer c1 [] rest
      | k + 1 => collect st peer (k + 1) defs rest

/-- One iteration of the `'next_peer` loop of
`make_class_definition_stream`: restore or fetch the block's count and enter
the block loop; a zero count completes blocks before consuming any
response. -/
def runSession (st : EngState) (sess : Session) : SessStep :=
  let enter : EngState → Nat → SessStep := fun st1 c =>
    if st1.start ≤ st1.stop then
      if c = 0 then
        match advanceLoop st1.stop st1.start st1.output st1.counts with
        | .error r => .brk r
        | .ok (start1, counts1, c1, output1) =>
            collect
              { st1 with start := start1, counts := counts1,
                         current_count_outer := some c1, output := output1 }
              sess.peer c1 [] sess.responses
      else collect st1 sess.peer c [] sess.responses
    else .brk ⟨st1.output, .finished⟩
  match st.current_count_outer with
  | some backup => enter st backup
  | none =>
      match st.counts with
      | [] => .brk ⟨st.output, .countsExhausted⟩
      | c :: tl =>
          enter { st with counts := tl, current_count_outer := some c } c

/-- The `'outer` loop of `make_class_definition_stream` over the
peer-session supply. -/
def runFrom (st : EngState) : List Session → RunResult
  | [] => ⟨st.output, .noPeers⟩
  | sess :: rest =>
      match runSession st sess with
      | .brk r => r
      | .nextPeer st1 => runFrom st1 rest

/-- `make_class_definition_stream`, as a function from the scripted peer
sessions and the declared-class count stream to the finite run result. -/
def make_class_definition_stream (start stop : Nat) (counts : List Nat)
    (sessions : List Session) : RunResult :=
  if start ≤ stop then
    runFrom ⟨start, stop, counts, none, []⟩ sessions
  else
    ⟨[], .finished⟩

/-- The number of yielded class definitions belonging to block `b`. -/
def countB (b : Nat) (out : List Yielded) : Nat :=
  (out.filter (fun it => it.definition.block_number = b)).length

/-- The per-block exactness invariant of a classes output prefix, relative
to the next block to be completed (`bound`): blocks outside
`[start0, bound)` have contributed nothing yet, and every completed block
has contributed exactly its declared number of definitions. -/
def ClInv (start0 : Nat) (counts0 : List Nat) (bound : Nat)
    (out : List Yielded) : Prop :=
  (∀ b, b < start0 → countB b out = 0) ∧
  (∀ b, bound ≤ b → countB b out = 0) ∧
  (∀ b, start0 ≤ b → b < bound → counts0[b - start0]? = some (countB b out))

/-- Alignment of an engaged classes-engine state with the original inputs
(see `TxEngine.Aligned`). -/
def Aligned (start0 : Nat) (counts0 : List Nat) (st : EngState) : Prop :=
  start0 ≤ st.start ∧ st.start ≤ st.stop ∧
  st.counts = counts0.drop (st.start - start0 + 1) ∧
  ∃ b, st.current_count_outer = some b ∧
    counts0[st.start - start0]? = some b

/-- The state of the classes engine before the first count is fetched. -/
def PreInv (start0 : Nat) (counts0 : List Nat) (st : EngState) : Prop :=
  st.current_count_outer = none ∧ st.start = start0 ∧ st.counts = counts0 ∧
  st.start ≤ st.stop

/-- What the invariants guarantee about a session step of the classes
engine. -/
def StepOK (start0 : Nat) (counts0 : List Nat) : SessStep → Prop
  | .brk r => ∃ bound, ClInv start0 counts0 bound r.output
  | .nextPeer st =>
      Aligned start0 counts0 st ∧ ClInv start0 counts0 st.start st.output

end ClassesEngine

namespace HdrEngine

/-- One decoded item of the headers response channel
(`BlockHeadersResponse`): a signed header, modelled as an opaque payload (the
engine never inspects its fields), or the `Fin` sentinel. -/
inductive Resp where
  | header (h : Nat)
  | fin
deriving DecidableEq, Repr

/-- One attempt at one peer (see `TxEngine.Session`). -/
structure Session where
  peer : Nat
  responses : List Resp
deriving DecidableEq, Repr

/-- `p2p_proto::common::Direction`. -/
inductive Direction where
  | forward
  | backward
deriving DecidableEq, Repr

/-- How a finite run of the header stream ended. -/
inductive Outcome where
  /-- `break 'outer`: the termination check at the top of a peer iteration
  fired. -/
  | finished
  /-- the modelled finite peer supply ran out. -/
  | noPeers
deriving DecidableEq, Repr

/-- The observable result of a run of the header stream: the yielded
`(peer, header)` pairs in order, and how the run ended. -/
structure RunResult where
  output : List (Nat × Nat)
  outcome : Outcome
deriving DecidableEq, Repr

/-- The `while let Some(signed_header) = responses.next()` loop of
`header_stream` for one peer session: each header response advances `start`
(by one forward; to `parent().unwrap_or_default()` backward) and is yielded;
`Fin` or the channel closing moves to the next peer.  Returns the updated
`start` and output.  `SignedBlockHeader::try_from` is modelled as infallible
(a decode failure just moves to the next peer, like `Fin`). -/
def runResponses (direction : Direction) (peer : Nat) (start : Nat)
    (output : List (Nat × Nat)) : List Resp → Nat × List (Nat × Nat)
  | [] => (start, output)
  | .fin :: _ => (start, output)
  | .header h :: rest =>
      let start1 :=
        match direction with
        | .forward => start + 1
        | .backward => (HeadersSync.parent start).getD 0
      runResponses direction peer start1 (output ++ [(peer, h)]) rest

/-- The `'outer`/`'next_peer` loops of `header_stream`: at the top of every
peer iteration the termination check fires when `start >= stop` (forward)
resp. `start <= stop` (backward); otherwise the peer's responses are
consumed. -/
def runFrom (direction : Direction) (stop : Nat) (start : Nat)
    (output : List (Nat × Nat)) : List Session → RunResult
  | [] => ⟨output, .noPeers⟩
  | sess :: rest =>
      let done : Bool :=
        match direction with
        | .forward => decide (stop ≤ start)
        | .backward => decide (start ≤ stop)
      if done then ⟨output, .finished⟩
      else
        let (start1, output1) :=
          runResponses direction sess.peer start output sess.responses
        runFrom direction stop start1 output1 rest

/-- `Client::header_stream`: `reverse = false` walks `start..=stop` forward,
`reverse = true` swaps the bounds and walks backward. -/
def header_stream (start stop : Nat) (reverse : Bool) (sessions : List Session) :
    RunResult :=
  match reverse with
  | true => runFrom .backward start stop [] sessions
  | false => runFrom .forward stop start [] sessions

end HdrEngine

/-!
## Theorems

Helper lemmas come first, then one theorem per claim (with its witness or
counterexample where applicable).
-/

section ContinuityTheorems

open HeadersSync

/-- Claim C6: `ForwardContinuity` accepts a header `h` iff `h.number` equals
the stored next number and `h.parent_hash` equals the stored parent hash,
returning `Discontinuity` otherwise (with the state unchanged), and on
success advances `next` by 1 and stores `h.hash` as the new parent hash;
`BackwardContinuity` accepts `h` iff `h.number` equals the expected number
and `h.hash` equals the expected hash, on success setting the expected
number to its parent (`none` once genesis is consumed — and once the stored
number is `none`, every further header is rejected) and the expected hash to
`h.parent_hash`. -/
theorem continuity_map_characterization :
    (∀ (s : ForwardContinuity) (h : SBHeader),
      s.map h =
        if h.number = s.next ∧ h.parent_hash = s.parent_hash then
          (.ok h, ⟨s.next + 1, h.hash⟩)
        else
          (.error .Discontinuity, s))
    ∧ (∀ (s : BackwardContinuity) (h : SBHeader),
      s.map h =
        match s.number with
        | some n =>
            if h.number = n ∧ h.hash = s.hash then
              (.ok h, ⟨parent n, h.parent_hash⟩)
            else
              (.error .Discontinuity, s)
        | none => (.error .Discontinuity, s)) := by
  constructor
  · intro s h
    by_cases h1 : h.number = s.next
    · by_cases h2 : h.parent_hash = s.parent_hash
      · simp [ForwardContinuity.map, h1, h2]
      · simp [ForwardContinuity.map, h1, h2]
    · simp [ForwardContinuity.map, h1]
  · intro s h
    obtain ⟨num, hsh⟩ := s
    cases num with
    | none => rfl
    | some n =>
        by_cases h1 : h.number = n
        · by_cases h2 : h.hash = hsh
          · simp [BackwardContinuity.map, h1, h2]
          · simp [BackwardContinuity.map, h1, h2]
        · simp [BackwardContinuity.map, h1]

end ContinuityTheorems

section StateDiffTheorems

open StateDiffEngine

/-- Claim C4, counterexample: a `ContractDiff` for the reserved system
contract address `ONE` carrying one storage write and a present nonce
decreases the counter by 1 only (from 5 to 4), not by
`|values| + 1 = 2` as the claim states: the nonce (and class hash) fields of
a diff routed to `system_contract_updates` are ignored by the engine. -/
theorem state_diff_one_ignores_nonce_in_count :
    (state_diff_item_step 5 StateUpdateData.empty
        (.contractDiff ⟨1, some 9, none, [⟨2, 3⟩]⟩)).map Prod.fst = some 4
    ∧ some 4 ≠ some (5 - ((1 : Nat) + 1)) := by decide

/-- On the `Nat` model, `checked_sub` returning `none` means the subtrahend
exceeded the counter. -/
theorem checked_sub_none {a b : Nat} (h : checked_sub a b = none) : a < b := by
  by_contra hc
  simp [checked_sub, Nat.le_of_not_lt (by omega : ¬ a < b)] at h

/-- On the `Nat` model, `checked_sub` succeeding returns the difference. -/
theorem checked_sub_some {a b x : Nat} (h : checked_sub a b = some x) :
    b ≤ a ∧ x = a - b := by
  by_cases hc : b ≤ a
  · simp [checked_sub, hc] at h
    exact ⟨hc, h.symm⟩
  · simp [checked_sub, hc] at h

/-- Claim C4, amended: processing one `ContractDiff` response decreases the
remaining counter by exactly `|values|`, plus 1 if a nonce is present and 1
if a class hash is present — but the nonce and class-hash increments apply
only to addresses other than the reserved system contract address `ONE`,
whose diffs are routed to `system_contract_updates` with those two fields
ignored; processing one `DeclaredClass` response decreases the counter by
exactly 1.  When the decrement exceeds the remaining counter the step fails
(the `break 'outer` / `IncorrectStateDiffCount` paths). -/
theorem state_diff_item_step_decrement :
    ∀ (current_count : Nat) (sd : StateUpdateData) (i : Item),
      (state_diff_item_step current_count sd i).map Prod.fst =
        if decrement_of i ≤ current_count then
          some (current_count - decrement_of i)
        else
          none := by
  intro c sd i
  cases i with
  | contractDiff d =>
      obtain ⟨addr, nonce, ch, values⟩ := d
      by_cases ha : addr = ContractAddressONE
      · cases h1 : checked_sub c values.length with
        | none =>
            have := checked_sub_none h1
            simp [state_diff_item_step, decrement_of, ha, h1]
            first
            | omega
            | rw [if_neg (by omega)]
            | (rw [if_pos (by omega)]; simp only [Option.some.injEq]; omega)
        | some c1 =>
            obtain ⟨hle, hc1⟩ := checked_sub_some h1
            subst hc1
            simp [state_diff_item_step, decrement_of, ha, h1]
            first
            | omega
            | rw [if_neg (by omega)]
            | (rw [if_pos (by omega)]; simp only [Option.some.injEq]; omega)
      · cases nonce with
        | none =>
            cases ch with
            | none =>
                cases h1 : checked_sub c values.length with
                | none =>
                    have := checked_sub_none h1
                    simp [state_diff_item_step, decrement_of, ha, h1]
                    first
                    | omega
                    | rw [if_neg (by omega)]
                    | (rw [if_pos (by omega)]; simp only [Option.some.injEq]; omega)
                | some c1 =>
                    obtain ⟨hle, hc1⟩ := checked_sub_some h1
                    subst hc1
                    simp [state_diff_item_step, decrement_of, ha, h1]
                    first
                    | omega
                    | rw [if_neg (by omega)]
                    | (rw [if_pos (by omega)]; simp only [Option.some.injEq]; omega)
            | some v =>
                cases h1 : checked_sub c values.length with
                | none =>
                    have := checked_sub_none h1
                    simp [state_diff_item_step, decrement_of, ha, h1]
                    first
                    | omega
                    | rw [if_neg (by omega)]
                    | (rw [if_pos (by omega)]; simp only [Option.some.injEq]; omega)
                | some c1 =>
                    obtain ⟨hle, hc1⟩ := checked_sub_some h1
                    subst hc1
                    cases h2 : checked_sub (c - values.length) 1 with
                    | none =>
                        have := checked_sub_none h2
                        simp [state_diff_item_step, decrement_of, ha, h1, h2]
                        first
                        | omega
                        | rw [if_neg (by omega)]
                        | (rw [if_pos (by omega)]; simp only [Option.some.injEq]; omega)
                    | some c2 =>
                        obtain ⟨hle2, hc2⟩ := checked_sub_some h2
                        subst hc2
                        simp [state_diff_item_step, decrement_of, ha, h1, h2]
                        first
                        | omega
                        | rw [if_neg (by omega)]
                        | (rw [if_pos (by omega)]; simp only [Option.some.injEq]; omega)
        | some n =>
            cases ch with
            | none =>
                cases h1 : checked_sub c values.length with
                | none =>
                    have := checked_sub_none h1
                    simp [state_diff_item_step, decrement_of, ha, h1]
                    first
                    | omega
                    | rw [if_neg (by omega)]
                    | (rw [if_pos (by omega)]; simp only [Option.some.injEq]; omega)
                | some c1 =>
                    obtain ⟨hle, hc1⟩ := checked_sub_some h1
                    subst hc1
                    cases h2 : checked_sub (c - values.length) 1 with
                    | none =>
                        have := checked_sub_none h2
                        simp [state_diff_item_step, decrement_of, ha, h1, h2]
                        first
                        | omega
                        | rw [if_neg (by omega)]
                        | (rw [if_pos (by omega)]; simp only [Option.some.injEq]; omega)
                    | some c2 =>
                        obtain ⟨hle2, hc2⟩ := checked_sub_some h2
                        subst hc2
                        simp [state_diff_item_step, decrement_of, ha, h1, h2]
                        first
                        | omega
                        | rw [if_neg (by omega)]
                        | (rw [if_pos (by omega)]; simp only [Option.some.injEq]; omega)
            | some v =>
                cases h1 : checked_sub c values.length with
                | none =>
                    have := checked_sub_none h1
                    simp [state_diff_item_step, decrement_of, ha, h1]
                    first
                    | omega
                    | rw [if_neg (by omega)]
                    | (rw [if_pos (by omega)]; simp only [Option.some.injEq]; omega)
                | some c1 =>
                    obtain ⟨hle, hc1⟩ := checked_sub_some h1
                    subst hc1
                    cases h2 : checked_sub (c - values.length) 1 with
                    | none =>
                        have := checked_sub_none h2
                        simp [state_diff_item_step, decrement_of, ha, h1, h2]
                        first
                        | omega
                        | rw [if_neg (by omega)]
                        | (rw [if_pos (by omega)]; simp only [Option.some.injEq]; omega)
                    | some c2 =>
                        obtain ⟨hle2, hc2⟩ := checked_sub_some h2
                        subst hc2
                        cases h3 : checked_sub (c - values.length - 1) 1 with
                        | none =>
                            have := checked_sub_none h3
                            simp [state_diff_item_step, decrement_of, ha, h1, h2, h3]
                            first
                            | omega
                            | rw [if_neg (by omega)]
                            | (rw [if_pos (by omega)]; simp only [Option.some.injEq]; omega)
                        | some c3 =>
                            obtain ⟨hle3, hc3⟩ := checked_sub_some h3
                            subst hc3
                            simp [state_diff_item_step, decrement_of, ha, h1, h2, h3]
                            first
                            | omega
                            | rw [if_neg (by omega)]
                            | (rw [if_pos (by omega)]; simp only [Option.some.injEq]; omega)
  | declaredClass d =>
      obtain ⟨chash, cch⟩ := d
      cases cch with
      | none =>
          cases h1 : checked_sub c 1 with
          | none =>
              have := checked_sub_none h1
              simp [state_diff_item_step, decrement_of, h1]
              first
              | omega
              | rw [if_neg (by omega)]
              | (rw [if_pos (by omega)]; simp only [Option.some.injEq]; omega)
          | some c1 =>
              obtain ⟨hle, hc1⟩ := checked_sub_some h1
              subst hc1
              simp [state_diff_item_step, decrement_of, h1]
              first
              | omega
              | rw [if_neg (by omega)]
              | (rw [if_pos (by omega)]; simp only [Option.some.injEq]; omega)
      | some cch =>
          cases h1 : checked_sub c 1 with
          | none =>
              have := checked_sub_none h1
              simp [state_diff_item_step, decrement_of, h1]
              first
              | omega
              | rw [if_neg (by omega)]
              | (rw [if_pos (by omega)]; simp only [Option.some.injEq]; omega)
          | some c1 =>
              obtain ⟨hle, hc1⟩ := checked_sub_some h1
              subst hc1
              simp [state_diff_item_step, decrement_of, h1]
              first
              | omega
              | rw [if_neg (by omega)]
              | (rw [if_pos (by omega)]; simp only [Option.some.injEq]; omega)

end StateDiffTheorems

section PeerDirectoryTheorems

open PeerDirectory

/-- Claim C8, counterexample: the cache keeps a single `last_update` shared
by every capability, so refreshing one capability's entry renews the
freshness of all others.  Concretely: capability `b` is cached at time 0
with peers `[3, 4]` (TTL 60); capability `a` misses and is refreshed at time
70, which overwrites the shared `last_update`; a lookup of `b` at time 100 —
100 seconds after `b`'s own entry was written, well past the TTL — still
returns the stale cached set `[3, 4]` instead of fetching the fresh
providers `[7, 8]`, contradicting the claim that freshness is judged
against the capability's own last update. -/
theorem stale_capability_served_after_cross_refresh :
    (let s0 := PeersWithCapability.default
     let r1 := get_update_peers_with_sync_capability s0 "b" 0 [3, 4, 9] 9
     let r2 := get_update_peers_with_sync_capability r1.2 "a" 70 [5, 9] 9
     let r3 := get_update_peers_with_sync_capability r2.2 "b" 100 [7, 8, 9] 9
     r3.1 = [3, 4] ∧ r3.1 ≠ [7, 8] ∧ r3.2 = r2.2) := by decide

/-- Claim C8, amended: the Peer Directory keeps one `last_update` for the
whole capability map.  `peers_for(capability)` returns the cached set iff
the time elapsed since that shared `last_update` is at most the TTL (default
60s) and the capability has an entry; otherwise it fetches the providers
from transport, removes the node's own id, caches the fresh set (renewing
the shared `last_update`, and with it the apparent freshness of every other
capability's entry), and returns it. -/
theorem peers_for_cache_characterization :
    (∀ (s : PeersWithCapability) (cap : String) (now : Nat)
       (fetched : List Nat) (ownId : Nat),
      get_update_peers_with_sync_capability s cap now fetched ownId =
        if now - s.last_update ≤ s.timeout then
          match mapLookup s.set cap with
          | some peers => (peers, s)
          | none => (fetched.erase ownId, s.update cap (fetched.erase ownId) now)
        else
          (fetched.erase ownId, s.update cap (fetched.erase ownId) now))
    ∧ PeersWithCapability.default.timeout = 60 := by
  constructor
  · intro s cap now fetched ownId
    by_cases h : now - s.last_update ≤ s.timeout
    · cases hm : mapLookup s.set cap with
      | none =>
          simp only [get_update_peers_with_sync_capability,
                     PeersWithCapability.get, if_neg (Nat.not_lt.mpr h), hm]
          rw [if_pos h]
      | some peers =>
          simp only [get_update_peers_with_sync_capability,
                     PeersWithCapability.get, if_neg (Nat.not_lt.mpr h), hm]
          rw [if_pos h]
    · simp only [get_update_peers_with_sync_capability,
                 PeersWithCapability.get,
                 if_pos (Nat.lt_of_not_le (by omega :
                   ¬ now - s.last_update ≤ s.timeout))]
      rw [if_neg h]
  · rfl

end PeerDirectoryTheorems

section HdrEngineTheorems

open HdrEngine

/-- Claim C5, counterexample: with `reverse = false` and `start = stop = 5`,
a peer standing by with the correct header for block 5 followed by `Fin`,
the stream terminates immediately and yields nothing: the per-peer
termination check `start >= stop` already fires when exactly one block — the
inclusive upper bound itself — remains, so the claimed single yield never
happens. -/
theorem header_stream_start_eq_stop_yields_nothing :
    header_stream 5 5 false [⟨1, [.header 55, .fin]⟩] = ⟨[], .finished⟩
    ∧ (header_stream 5 5 false [⟨1, [.header 55, .fin]⟩]).output.length ≠ 1 := by
  decide

/-- For a forward session, each header response advances `start` by one and
appends a yield; `Fin` ends the session. -/
theorem runResponses_forward_headers (p : Nat) :
    ∀ (hdrs : List Nat) (start : Nat) (out : List (Nat × Nat)),
      runResponses .forward p start out (hdrs.map Resp.header ++ [Resp.fin]) =
        (start + hdrs.length, out ++ hdrs.map (fun h => (p, h))) := by
  intro hdrs
  induction hdrs with
  | nil => intro start out; simp [runResponses]
  | cons h hdrs ih =>
      intro start out
      simp only [List.map_cons, List.cons_append, runResponses, List.append_eq,
                 ih, List.append_assoc, List.length_cons, List.singleton_append,
                 Prod.mk.injEq]
      exact ⟨by omega, rfl⟩

/-- Claim C5, amended: with `reverse = false` the header stream is a
producer over `[start, stop)` at peer-switch granularity: the per-peer
termination check fires as soon as `start >= stop`.  Consequently (a) when
`start = stop` the stream terminates at the first peer iteration and yields
nothing, and (b) when `start < stop` and the first peer delivers exactly the
`stop - start + 1` requested headers followed by `Fin`, every one of them —
the one for `stop` included — is yielded in order, because the check only
runs between peers; the stream then terminates at the next peer iteration.
(A peer switch that happens with exactly one block remaining, however,
terminates the stream without fetching that block.) -/
theorem header_stream_forward_range :
    (∀ (n : Nat) (s : Session) (rest : List Session),
        header_stream n n false (s :: rest) = ⟨[], .finished⟩)
    ∧ (∀ (start stop p : Nat) (hdrs : List Nat) (s2 : Session)
         (rest : List Session),
        start < stop →
        hdrs.length = stop - start + 1 →
        header_stream start stop false
            (⟨p, hdrs.map Resp.header ++ [Resp.fin]⟩ :: s2 :: rest) =
          ⟨hdrs.map (fun h => (p, h)), .finished⟩) := by
  constructor
  · intro n s rest
    simp [header_stream, runFrom]
  · intro start stop p hdrs s2 rest hlt hlen
    simp only [header_stream, runFrom, decide_eq_true_eq]
    rw [if_neg (by omega)]
    rw [runResponses_forward_headers]
    simp only [runFrom, decide_eq_true_eq]
    rw [if_pos (by omega)]
    simp

/-- Claim C5 witness: a concrete three-block forward run `[2, 4]` delivered
by a single peer, followed by an unused second peer, yields exactly the
three headers in order. -/
theorem header_stream_forward_range_witness :
    (2 : Nat) < 4 ∧ ([20, 21, 22] : List Nat).length = 4 - 2 + 1 ∧
    header_stream 2 4 false
        [⟨1, [.header 20, .header 21, .header 22, .fin]⟩, ⟨2, []⟩] =
      ⟨[(1, 20), (1, 21), (1, 22)], .finished⟩ :=
  ⟨by decide, by decide,
   header_stream_forward_range.2 2 4 1 [20, 21, 22] ⟨2, []⟩ []
     (by decide) (by decide)⟩

end HdrEngineTheorems

section TxEngineTheorems

open TxEngine

/-- Claim C1, counterexample: block 0 is the last block of the range and
declares one transaction; peer 1 sends two.  The claim predicts that peer 1
is faulted and block 0 is restarted with the waiting peer 2; instead the
engine `break`s the outer loop: the run ends with outcome `overCount`, peer
2 (which stands ready with a correct response) is never consulted, and no
block is restarted.  (The one block yielded before the violation is exact
and uncorrupted.) -/
theorem tx_overcount_not_restarted_with_next_peer :
    make_transaction_stream 0 0 [(1, 77)]
        [⟨1, [.txn 5, .txn 6, .fin]⟩, ⟨2, [.txn 9, .fin]⟩] =
      ⟨[⟨1, 77, [5], 0⟩], .overCount⟩ := by decide

/-- Claim C1, amended: in the transaction engine (the state-diff engine has
the identical structure), a countable item arriving when the remaining
counter is already zero — the only way a decrement could take it below zero
— makes the engine `break 'outer`: the whole stream terminates immediately
with outcome `overCount`, nothing beyond the already-yielded blocks is
emitted (in particular no corrupted block), the rest of the offending
session is ignored, and no further peer is consulted; the block is *not*
restarted with the next candidate peer. -/
theorem tx_overcount_breaks_outer :
    (∀ (st : EngState) (peer t : Nat) (txs : List Nat) (resps : List Resp),
        runResponses st peer 0 txs (.txn t :: resps) =
          .brk ⟨st.output, .overCount⟩)
    ∧ (∀ (st : EngState) (sess : Session) (rest : List Session) (r : RunResult),
        runSession st sess = .brk r → runFrom st (sess :: rest) = r) := by
  constructor
  · intro st peer t txs resps
    rfl
  · intro st sess rest r h
    simp [runFrom, h]

/-- Claim C1 witness: a concrete over-counting session (counter exhausted at
zero, one more item arrives) breaks out of the whole run even though another
session is queued. -/
theorem tx_overcount_breaks_outer_witness :
    runSession ⟨0, 0, [], some 0, 7, []⟩ ⟨1, [.txn 3]⟩ =
      .brk ⟨[], .overCount⟩
    ∧ runFrom ⟨0, 0, [], some 0, 7, []⟩ [⟨1, [.txn 3]⟩, ⟨2, [.fin]⟩] =
      ⟨[], .overCount⟩ :=
  ⟨by decide,
   tx_overcount_breaks_outer.2 ⟨0, 0, [], some 0, 7, []⟩ ⟨1, [.txn 3]⟩
     [⟨2, [.fin]⟩] ⟨[], .overCount⟩ (by decide)⟩

end TxEngineTheorems

section EvEngineTheorems

open EvEngine

/-- Claim C9: the events engine *can* panic.  `current_txn_hash` is kept
across block boundaries within one peer session, but the per-block
accumulator is emptied after each yield; if the first event of the next
block repeats the previous block's transaction hash — which an adversarial
peer is free to do — the engine appends to the last group of an empty
accumulator and `events.last_mut().expect("not empty")` fires.  Concretely:
over blocks 0 and 1 with declared counts `[1, 1]`, peer 7 sends two events
with the same transaction hash 42; block 0 is yielded and the engine then
panics. -/
theorem event_stream_repeated_hash_panics :
    make_event_stream 0 1 [1, 1] [⟨7, [.event 42 100, .event 42 101]⟩] =
      ⟨[⟨7, 0, [(42, [100])]⟩], .panicked⟩ := by decide

end EvEngineTheorems

section NextGapTheorems

open HeadersSync

/-- When every block up to `n` is stored, the downward search for a block
without a stored parent finds nothing. -/
theorem next_ancestor_without_parent_complete (s : Storage) :
    ∀ n : Nat, (∀ k, k ≤ n → block_exists s k = true) →
      next_ancestor_without_parent s n = none := by
  intro n
  induction n with
  | zero => intro _; rfl
  | succ k ih =>
      intro hall
      have h1 : block_exists s (k + 1) = true := hall _ (Nat.le_refl _)
      cases hbh : block_header s (k + 1) with
      | none => simp [block_exists, hbh] at h1
      | some hd =>
          simp only [next_ancestor_without_parent, hbh, hall k (by omega),
                     if_true]
          exact ih (fun k2 hk2 => hall k2 (by omega))

/-- Claim C7: `next_gap` searches downward from `(head, head_hash)`.  With
blocks `{0, 1, 2, 5, 6}` stored (block 5 carrying parent hash 204, block 2
hash 102), `next_gap(head = 6)` returns head `4` with head hash
`parent_hash_of_5 = 204`, tail `3` and tail parent hash `hash_of_2 = 102`.
When `head` is stored and no header below it is missing, no gap is
returned; and when `head` itself is missing, `head` becomes the gap's head
with the given `head_hash`. -/
theorem next_gap_characterization :
    (next_gap
        [(0, ⟨100, 0⟩), (1, ⟨101, 100⟩), (2, ⟨102, 101⟩),
         (5, ⟨105, 204⟩), (6, ⟨106, 105⟩)] 6 106 =
      some ⟨4, 204, 3, 102⟩)
    ∧ (∀ (s : Storage) (head hh : Nat),
        (∀ k, k ≤ head → block_exists s k = true) →
        next_gap s head hh = none)
    ∧ (∀ (s : Storage) (head hh : Nat),
        block_exists s head = false →
        ∃ g, next_gap s head hh = some g ∧ g.head = head ∧ g.head_hash = hh) := by
  refine ⟨by decide, ?_, ?_⟩
  · intro s head hh hall
    simp [next_gap, hall head (Nat.le_refl _),
          next_ancestor_without_parent_complete s head hall]
  · intro s head hh hex
    cases hna : next_ancestor s head with
    | none => exact ⟨⟨head, hh, 0, 0⟩, by simp [next_gap, hex, hna], rfl, rfl⟩
    | some t =>
        exact ⟨⟨head, hh, t.1 + 1, t.2⟩, by simp [next_gap, hex, hna], rfl, rfl⟩

/-- Claim C7 witness: on the complete chain `{0, 1, 2}` no gap is reported;
on the same chain a search from the missing block 5 makes 5 the gap's head
and keeps the caller-provided hash. -/
theorem next_gap_characterization_witness :
    (next_gap [(0, ⟨100, 0⟩), (1, ⟨101, 100⟩), (2, ⟨102, 101⟩)] 2 102 = none)
    ∧ ∃ g, next_gap [(0, ⟨100, 0⟩), (1, ⟨101, 100⟩), (2, ⟨102, 101⟩)] 5 99 =
        some g ∧ g.head = 5 ∧ g.head_hash = 99 :=
  ⟨next_gap_characterization.2.1
      [(0, ⟨100, 0⟩), (1, ⟨101, 100⟩), (2, ⟨102, 101⟩)] 2 102 (by decide),
   next_gap_characterization.2.2
      [(0, ⟨100, 0⟩), (1, ⟨101, 100⟩), (2, ⟨102, 101⟩)] 5 99 (by decide)⟩

end NextGapTheorems

section TxRotationTheorems

open TxEngine

/-- A session that delivers fewer countable items than the remaining counter
and then ends — by a premature `Fin` or by closing the connection — yields
nothing and leaves the engine state untouched. -/
theorem runResponses_undercount (st : EngState) (p : Nat) :
    ∀ (items : List Nat) (c : Nat) (txs : List Nat),
      items.length < c →
      runResponses st p c txs (items.map Resp.txn ++ [Resp.fin]) = .nextPeer st
      ∧ runResponses st p c txs (items.map Resp.txn) = .nextPeer st := by
  intro items
  induction items with
  | nil =>
      intro c txs hlt
      constructor
      · simp only [List.map_nil, List.nil_append, runResponses]
        rw [if_neg (by omega)]
      · rfl
  | cons i items ih =>
      intro c txs hlt
      obtain ⟨c1, rfl⟩ : ∃ c1, c = c1 + 1 := ⟨c - 1, by omega⟩
      have hc1 : items.length < c1 := by
        simp only [List.length_cons] at hlt
        omega
      constructor
      · simp only [List.map_cons, List.cons_append, runResponses]
        rw [if_neg (by omega)]
        exact (ih c1 (txs ++ [i]) hc1).1
      · simp only [List.map_cons, runResponses]
        rw [if_neg (by omega)]
        exact (ih c1 (txs ++ [i]) hc1).2

/-- Fetching the count of the current block at the start of a session leads
to the same run as starting the session with the count already backed up:
the engaged state is reached either way. -/
theorem runFrom_engage (start stop c cm comm0 : Nat)
    (counts : List (Nat × Nat)) (out : List Yielded) :
    ∀ sessions : List Session,
      runFrom ⟨start, stop, (c, cm) :: counts, none, comm0, out⟩ sessions =
        runFrom ⟨start, stop, counts, some c, cm, out⟩ sessions := by
  intro sessions
  cases sessions with
  | nil => rfl
  | cons s rest => rfl

/-- Claim C3: if a peer disconnects mid-block or sends `Fin` before the
current block's counter reaches zero, the engine switches to the next peer
with the state it had when the session began: the counter backup
`current_count_outer` still holds the full header-declared count (it is
never decremented) and each session starts with an empty accumulator, so
already-yielded blocks are untouched and the remainder of the run — in
particular the emission for the interrupted block, produced by the next
honest peer — is identical to a run in which the faulty peer never took
part.  Stated both for an arbitrary engaged mid-stream state and for a whole
stream whose first peer is the faulty one. -/
theorem faulty_session_preserves_stream :
    ∀ (c : Nat) (items : List Nat) (p : Nat),
      items.length < c →
      (∀ (st : EngState) (sessions : List Session),
          st.current_count_outer = some c →
          runFrom st (⟨p, items.map Resp.txn ++ [Resp.fin]⟩ :: sessions) =
            runFrom st sessions
          ∧ runFrom st (⟨p, items.map Resp.txn⟩ :: sessions) =
            runFrom st sessions)
      ∧ (∀ (start stop cm : Nat) (counts : List (Nat × Nat))
           (sessions : List Session),
          make_transaction_stream start stop ((c, cm) :: counts)
              (⟨p, items.map Resp.txn ++ [Resp.fin]⟩ :: sessions) =
            make_transaction_stream start stop ((c, cm) :: counts) sessions) := by
  intro c items p hlt
  constructor
  · intro st sessions houter
    obtain ⟨start, stop, counts, outer, comm, out⟩ := st
    simp only [EngState.current_count_outer] at houter
    subst houter
    constructor
    · simp only [runFrom, runSession]
      rw [(runResponses_undercount _ p items c [] hlt).1]
    · simp only [runFrom, runSession]
      rw [(runResponses_undercount _ p items c [] hlt).2]
  · intro start stop cm counts sessions
    by_cases hss : start ≤ stop
    · simp only [make_transaction_stream, if_pos hss]
      conv_rhs => rw [runFrom_engage]
      simp only [runFrom, runSession]
      rw [(runResponses_undercount _ p items c [] hlt).1]
    · simp only [make_transaction_stream, if_neg hss]

/-- Claim C3 witness: peer 1 sends two of the four transactions of block 5
and disconnects (or sends a premature `Fin`); the run continues with peer 2
exactly as if peer 1 had never been consulted, and the emission for block 5
is peer 2's full payload. -/
theorem faulty_session_preserves_stream_witness :
    (runFrom ⟨5, 5, [], some 4, 9, []⟩
        [⟨1, [.txn 1, .txn 2, .fin]⟩, ⟨2, [.txn 5, .txn 6, .txn 7, .txn 8, .fin]⟩] =
      runFrom ⟨5, 5, [], some 4, 9, []⟩
        [⟨2, [.txn 5, .txn 6, .txn 7, .txn 8, .fin]⟩])
    ∧ (make_transaction_stream 5 5 [(4, 9)]
        [⟨1, [.txn 1, .txn 2, .fin]⟩, ⟨2, [.txn 5, .txn 6, .txn 7, .txn 8, .fin]⟩] =
      make_transaction_stream 5 5 [(4, 9)]
        [⟨2, [.txn 5, .txn 6, .txn 7, .txn 8, .fin]⟩])
    ∧ make_transaction_stream 5 5 [(4, 9)]
        [⟨2, [.txn 5, .txn 6, .txn 7, .txn 8, .fin]⟩] =
      ⟨[⟨2, 9, [5, 6, 7, 8], 5⟩], .finished⟩ :=
  ⟨((faulty_session_preserves_stream 4 [1, 2] 1 (by decide)).1
      ⟨5, 5, [], some 4, 9, []⟩
      [⟨2, [.txn 5, .txn 6, .txn 7, .txn 8, .fin]⟩] rfl).1,
   (faulty_session_preserves_stream 4 [1, 2] 1 (by decide)).2
     5 5 9 [] [⟨2, [.txn 5, .txn 6, .txn 7, .txn 8, .fin]⟩],
   by decide⟩

end TxRotationTheorems
section TxExactCount

open TxEngine

/-- Appending an exact block to an exact output keeps it exact. -/
theorem TxOutOK_append {start0 : Nat} {counts0 : List (Nat × Nat)}
    {out : List Yielded} (hO : OutOK start0 counts0 out) (it : Yielded)
    (h1 : start0 ≤ it.block)
    (h2 : (counts0[it.block - start0]?).map Prod.fst =
      some it.transactions.length) :
    OutOK start0 counts0 (out ++ [it]) := by
  intro x hx
  rcases List.mem_append.mp hx with hx | hx
  · exact hO x hx
  · rcases List.mem_singleton.mp hx with rfl
    exact ⟨h1, h2⟩

/-- `yieldAdvance` yields an exact block and re-establishes the invariants
for the next block (or ends the run with only exact blocks emitted). -/
theorem yieldAdvance_exact {start0 : Nat} {counts0 : List (Nat × Nat)}
    (st : EngState) (p : Nat) (txs : List Nat)
    (hA : Aligned start0 counts0 st)
    (hO : OutOK start0 counts0 st.output)
    (hloc : (counts0[st.start - start0]?).map Prod.fst = some txs.length) :
    match yieldAdvance st p txs with
    | .error r => OutOK start0 counts0 r.output
    | .ok (st1, c1, txs1) =>
        Aligned start0 counts0 st1 ∧ OutOK start0 counts0 st1.output ∧
        LocalOK start0 counts0 st1 c1 txs1 := by
  obtain ⟨h1, h2, h3, b, hb, hbval⟩ := hA
  have hOext : OutOK start0 counts0
      (st.output ++ [⟨p, st.current_commitment, txs, st.start⟩]) :=
    TxOutOK_append hO _ h1 hloc
  by_cases hlt : st.start < st.stop
  · cases hc : st.counts with
    | nil =>
        simp only [yieldAdvance, hc, if_pos hlt]
        exact hOext
    | cons hd tl =>
        obtain ⟨cnt, cm⟩ := hd
        have hget : counts0[st.start - start0 + 1]? = some (cnt, cm) := by
          have := List.getElem?_drop counts0 (st.start - start0 + 1) 0
          rw [← h3, hc] at this
          simpa using this.symm
        have htl : tl = counts0.drop (st.start - start0 + 2) := by
          have := List.tail_drop counts0 (st.start - start0 + 1)
          rw [← h3, hc] at this
          simpa using this
        simp only [yieldAdvance, hc, if_pos hlt]
        have he : st.start + 1 - start0 = st.start - start0 + 1 := by omega
        refine ⟨⟨?_, ?_, ?_, cnt, rfl, ?_⟩, hOext, Or.inl ?_⟩
        · show start0 ≤ st.start + 1
          omega
        · show st.start + 1 ≤ st.stop
          omega
        · show tl = counts0.drop (st.start + 1 - start0 + 1)
          rw [htl]
          congr 1
          omega
        · show (counts0[st.start + 1 - start0]?).map Prod.fst = some cnt
          rw [he, hget]
          rfl

        · show (counts0[st.start + 1 - start0]?).map Prod.fst =
            some (cnt + ([] : List Nat).length)
          rw [he, hget]
          rfl
  · have hse : st.start = st.stop := by omega
    simp only [yieldAdvance, if_neg hlt]
    exact ⟨⟨h1, h2, h3, b, hb, hbval⟩, hOext, Or.inr ⟨rfl, rfl, hse⟩⟩

/-- The response loop of the transaction engine preserves the invariants:
every block it yields is exact, and the state it hands to the next peer is
aligned. -/
theorem runResponses_exact {start0 : Nat} {counts0 : List (Nat × Nat)} :
    ∀ (resps : List Resp) (st : EngState) (p c : Nat) (txs : List Nat),
      Aligned start0 counts0 st →
      OutOK start0 counts0 st.output →
      LocalOK start0 counts0 st c txs →
      StepOK start0 counts0 (runResponses st p c txs resps) := by
  intro resps
  induction resps with
  | nil =>
      intro st p c txs hA hO _
      exact ⟨hA, hO⟩
  | cons r rest ih =>
      intro st p c txs hA hO hloc
      cases r with
      | txn t =>
          cases c with
          | zero => exact hO
          | succ c1 =>
              have hmap : (counts0[st.start - start0]?).map Prod.fst =
                  some (c1 + 1 + txs.length) := by
                rcases hloc with h | ⟨h, _, _⟩
                · exact h
                · exact absurd h (Nat.succ_ne_zero c1)
              by_cases hc1 : c1 = 0
              · subst hc1
                have hya := yieldAdvance_exact st p (txs ++ [t]) hA hO
                  (by
                    rw [hmap]
                    simp only [List.length_append, List.length_cons,
                      List.length_nil, Option.some.injEq]
                    omega)
                simp only [runResponses, if_pos rfl]
                cases hy : yieldAdvance st p (txs ++ [t]) with
                | error r1 =>
                    rw [hy] at hya
                    exact hya
                | ok v =>
                    obtain ⟨st1, c2, txs2⟩ := v
                    rw [hy] at hya
                    exact ih st1 p c2 txs2 hya.1 hya.2.1 hya.2.2
              · simp only [runResponses, if_neg hc1]
                refine ih st p c1 (txs ++ [t]) hA hO (Or.inl ?_)
                rw [hmap]
                simp only [List.length_append, List.length_cons,
                  List.length_nil, Option.some.injEq]
                omega
      | fin =>
          by_cases hc : c = 0
          · subst hc
            by_cases hss : st.start = st.stop
            · simp only [runResponses, if_pos rfl, if_pos hss]
              exact hO
            · have hmap : (counts0[st.start - start0]?).map Prod.fst =
                  some txs.length := by
                rcases hloc with h | ⟨_, _, h⟩
                · simpa using h
                · exact absurd h hss
              have hya := yieldAdvance_exact st p txs hA hO hmap
              simp only [runResponses, if_pos rfl, if_neg hss]
              cases hy : yieldAdvance st p txs with
              | error r1 =>
                  rw [hy] at hya
                  exact hya
              | ok v =>
                  obtain ⟨st1, c2, txs2⟩ := v
                  rw [hy] at hya
                  exact ih st1 p c2 txs2 hya.1 hya.2.1 hya.2.2
          · simp only [runResponses, if_neg hc]
            exact ⟨hA, hO⟩

/-- The outer loop of the transaction engine only ever emits exact blocks. -/
theorem runFrom_exact {start0 : Nat} {counts0 : List (Nat × Nat)} :
    ∀ (sessions : List Session) (st : EngState),
      (PreInv start0 counts0 st ∨ Aligned start0 counts0 st) →
      OutOK start0 counts0 st.output →
      OutOK start0 counts0 (runFrom st sessions).output := by
  intro sessions
  induction sessions with
  | nil => intro st _ hO; exact hO
  | cons sess rest ih =>
      intro st hinv hO
      cases houter : st.current_count_outer with
      | some b =>
          have hA : Aligned start0 counts0 st := by
            rcases hinv with ⟨h, _⟩ | hA
            · rw [houter] at h; cases h
            · exact hA
          have hbval : (counts0[st.start - start0]?).map Prod.fst = some b := by
            obtain ⟨_, _, _, b1, hb1, hb1v⟩ := hA
            rw [houter] at hb1
            cases hb1
            exact hb1v
          have hstep := runResponses_exact sess.responses st sess.peer b []
            hA hO (Or.inl (by simpa using hbval))
          simp only [runFrom, runSession, houter]
          cases hrr : runResponses st sess.peer b [] sess.responses with
          | brk r => rw [hrr] at hstep; exact hstep
          | nextPeer st1 =>
              rw [hrr] at hstep
              exact ih st1 (Or.inr hstep.1) hstep.2
      | none =>
          have hP : PreInv start0 counts0 st := by
            rcases hinv with hP | ⟨_, _, _, b1, hb1, _⟩
            · exact hP
            · rw [houter] at hb1; cases hb1
          obtain ⟨_, hstart, hcounts, hss⟩ := hP
          cases hc : st.counts with
          | nil =>
              simp only [runFrom, runSession, houter, hc]
              exact hO
          | cons hd tl =>
              obtain ⟨cnt, cm⟩ := hd
              have hA1 : Aligned start0 counts0
                  { st with counts := tl, current_count_outer := some cnt,
                            current_commitment := cm } := by
                refine ⟨?_, ?_, ?_, cnt, rfl, ?_⟩
                · show start0 ≤ st.start
                  omega
                · show st.start ≤ st.stop
                  exact hss
                · show tl = counts0.drop (st.start - start0 + 1)
                  rw [hstart, Nat.sub_self, ← hcounts, hc]
                  simp
                · show (counts0[st.start - start0]?).map Prod.fst = some cnt
                  rw [hstart, Nat.sub_self, ← hcounts, hc]
                  simp
              have hstep := runResponses_exact sess.responses _ sess.peer cnt []
                hA1 hO (Or.inl (by
                  show (counts0[st.start - start0]?).map Prod.fst =
                    some (cnt + ([] : List Nat).length)
                  rw [hstart, Nat.sub_self, ← hcounts, hc]
                  simp))
              simp only [runFrom, runSession, houter, hc]
              cases hrr : runResponses
                  { st with counts := tl, current_count_outer := some cnt,
                            current_commitment := cm }
                  sess.peer cnt [] sess.responses with
              | brk r => rw [hrr] at hstep; exact hstep
              | nextPeer st1 =>
                  rw [hrr] at hstep
                  exact ih st1 (Or.inr hstep.1) hstep.2

end TxExactCount

section EvExactCount

open EvEngine

/-- Opening a new singleton group adds exactly one counted event. -/
theorem sumEvents_new_group (events : List (Nat × List Nat)) (h p : Nat) :
    sumEvents (events ++ [(h, [p])]) = sumEvents events + 1 := by
  simp [sumEvents]

/-- Appending to the last group adds exactly one counted event. -/
theorem sumEvents_appendToLast :
    ∀ (events : List (Nat × List Nat)) (p : Nat), events ≠ [] →
      sumEvents (appendToLast events p) = sumEvents events + 1 := by
  intro events
  induction events with
  | nil => intro p h; exact absurd rfl h
  | cons g rest ih =>
      intro p _
      cases rest with
      | nil => simp [appendToLast, sumEvents]
      | cons g2 rest2 =>
          have hrec := ih p (by simp)
          simp only [appendToLast, sumEvents, List.map_cons, List.sum_cons]
            at hrec ⊢
          omega

/-- Appending an exact block to an exact events output keeps it exact. -/
theorem EvOutOK_append {start0 : Nat} {counts0 : List Nat}
    {out : List Yielded} (hO : OutOK start0 counts0 out) (it : Yielded)
    (h1 : start0 ≤ it.block)
    (h2 : counts0[it.block - start0]? = some (sumEvents it.events)) :
    OutOK start0 counts0 (out ++ [it]) := by
  intro x hx
  rcases List.mem_append.mp hx with hx | hx
  · exact hO x hx
  · rcases List.mem_singleton.mp hx with rfl
    exact ⟨h1, h2⟩

/-- The zero-count yield region of the events engine yields only exact
blocks and, if the run continues, re-establishes the alignment facts with a
positive counter. -/
theorem yieldLoop_exact {start0 : Nat} {counts0 : List Nat} (p stop : Nat) :
    ∀ (counts : List Nat) (start : Nat) (events : List (Nat × List Nat))
      (output : List Yielded),
      start0 ≤ start → start ≤ stop →
      counts = counts0.drop (start - start0 + 1) →
      counts0[start - start0]? = some (sumEvents events) →
      OutOK start0 counts0 output →
      (match yieldLoop p stop start events output counts with
       | .error r => OutOK start0 counts0 r.output
       | .ok (start1, counts1, c1, output1) =>
           start0 ≤ start1 ∧ start1 ≤ stop ∧
           counts1 = counts0.drop (start1 - start0 + 1) ∧
           counts0[start1 - start0]? = some c1 ∧
           OutOK start0 counts0 output1 ∧ 0 < c1) := by
  intro counts
  induction counts with
  | nil =>
      intro start events output h1 h2 h3 h4 hO
      have hOext := EvOutOK_append hO ⟨p, start, events⟩ h1 h4
      by_cases hss : start = stop
      · simp only [yieldLoop, if_pos hss]
        exact hOext
      · simp only [yieldLoop, if_neg hss]
        exact hOext
  | cons c0 tl ih =>
      intro start events output h1 h2 h3 h4 hO
      have hOext := EvOutOK_append hO ⟨p, start, events⟩ h1 h4
      have hget : counts0[start - start0 + 1]? = some c0 := by
        have := List.getElem?_drop counts0 (start - start0 + 1) 0
        rw [← h3] at this
        simpa using this.symm
      have htl : tl = counts0.drop (start - start0 + 2) := by
        have := List.tail_drop counts0 (start - start0 + 1)
        rw [← h3] at this
        simpa using this
      have he : start + 1 - start0 = start - start0 + 1 := by omega
      cases c0 with
      | zero =>
          by_cases hss : start = stop
          · simp only [yieldLoop, if_pos hss]
            exact hOext
          · simp only [yieldLoop, if_neg hss]
            refine ih (start + 1) [] _ (by omega) (by omega) ?_ ?_ hOext
            · rw [htl]
              congr 1
              omega
            · rw [he, hget]
              rfl
      | succ k =>
          by_cases hss : start = stop
          · simp only [yieldLoop, if_pos hss]
            exact hOext
          · simp only [yieldLoop, if_neg hss]
            refine ⟨by omega, by omega, ?_, ?_, hOext, by omega⟩
            · rw [htl]
              congr 1
              omega
            · rw [he, hget]

/-- The fused block/response loop of the events engine preserves the
invariants: every block it yields is exact, whether the session ends in a
yield, a premature close, a count-stream error or the panic. -/
theorem consume_exact {start0 : Nat} {counts0 : List Nat} (p : Nat) :
    ∀ (resps : List Resp) (st : EngState) (cth : Option Nat) (count : Nat)
      (events : List (Nat × List Nat)),
      Aligned start0 counts0 st →
      OutOK start0 counts0 st.output →
      counts0[st.start - start0]? = some (count + sumEvents events) →
      0 < count →
      StepOK start0 counts0 (consume st p cth count events resps) := by
  intro resps
  induction resps with
  | nil =>
      intro st cth count events hA hO _ _
      exact ⟨hA, hO⟩
  | cons r rest ih =>
      intro st cth count events hA hO hmap hpos
      cases r with
      | fin => exact ⟨hA, hO⟩
      | event h pd =>
          have hstep :
              ∀ (events1 : List (Nat × List Nat)) (cth1 : Option Nat),
                sumEvents events1 = sumEvents events + 1 →
                StepOK start0 counts0
                  (match count - 1 with
                   | 0 =>
                       match yieldLoop p st.stop st.start events1 st.output
                           st.counts with
                       | .error r => .brk r
                       | .ok (start1, counts1, c1, output1) =>
                           consume
                             { st with start := start1, counts := counts1,
                                       current_count_outer := some c1,
                                       output := output1 }
                             p cth1 c1 [] rest
                   | k + 1 => consume st p cth1 (k + 1) events1 rest) := by
            intro events1 cth1 hsum
            obtain ⟨hA1, hA2, hA3, b, hb, hbv⟩ := hA
            cases hcm : count - 1 with
            | zero =>
                have hmap1 : counts0[st.start - start0]? =
                    some (sumEvents events1) := by
                  rw [hmap, hsum]
                  simp only [Option.some.injEq]
                  omega
                have hyl := yieldLoop_exact p st.stop st.counts st.start
                  events1 st.output hA1 hA2 hA3 hmap1 hO
                cases hy : yieldLoop p st.stop st.start events1 st.output
                    st.counts with
                | error r1 =>
                    rw [hy] at hyl
                    exact hyl
                | ok v =>
                    obtain ⟨start1, counts1, c1, output1⟩ := v
                    rw [hy] at hyl
                    obtain ⟨k1, k2, k3, k4, k5, k6⟩ := hyl
                    refine ih _ cth1 c1 [] ⟨k1, k2, k3, c1, rfl, k4⟩ k5 ?_ k6
                    show counts0[start1 - start0]? = some (c1 + sumEvents [])
                    rw [k4]
                    rfl
            | succ k =>
                refine ih st cth1 (k + 1) events1 ⟨hA1, hA2, hA3, b, hb, hbv⟩
                  hO ?_ (by omega)
                rw [hmap, hsum]
                simp only [Option.some.injEq]
                omega
          simp only [consume]
          cases cth with
          | none =>
              exact hstep (events ++ [(h, [pd])]) (some h)
                (sumEvents_new_group events h pd)
          | some x =>
              by_cases hx : x = h
              · cases events with
                | nil =>
                    simp only [if_pos hx]
                    exact hO
                | cons g gs =>
                    simp only [if_pos hx]
                    exact hstep (appendToLast (g :: gs) pd) (some x)
                      (sumEvents_appendToLast (g :: gs) pd (by simp))
              · simp only [if_neg hx]
                exact hstep (events ++ [(h, [pd])]) (some h)
                  (sumEvents_new_group events h pd)

/-- The outer loop of the events engine only ever emits exact blocks. -/
theorem ev_runFrom_exact {start0 : Nat} {counts0 : List Nat} :
    ∀ (sessions : List Session) (st : EngState),
      (PreInv start0 counts0 st ∨ Aligned start0 counts0 st) →
      OutOK start0 counts0 st.output →
      OutOK start0 counts0 (runFrom st sessions).output := by
  intro sessions
  induction sessions with
  | nil => intro st _ hO; exact hO
  | cons sess rest ih =>
      intro st hinv hO
      have hcont :
          ∀ st1 : EngState, StepOK start0 counts0 (.nextPeer st1) →
            OutOK start0 counts0 (runFrom st1 rest).output :=
        fun st1 hs => ih st1 (Or.inr hs.1) hs.2
      have hfold :
          ∀ s1 : SessStep, StepOK start0 counts0 s1 →
            OutOK start0 counts0
              (match s1 with
               | .brk r => r
               | .nextPeer st1 => runFrom st1 rest).output := by
        intro s1 hs
        cases s1 with
        | brk r => exact hs
        | nextPeer st1 => exact hcont st1 hs
      have hentry :
          ∀ (st1 : EngState) (c : Nat),
            Aligned start0 counts0 st1 →
            OutOK start0 counts0 st1.output →
            counts0[st1.start - start0]? = some c →
            StepOK start0 counts0
              (if c = 0 then
                match yieldLoop sess.peer st1.stop st1.start [] st1.output
                    st1.counts with
                | .error r => .brk r
                | .ok (start1, counts1, c1, output1) =>
                    consume
                      { st1 with start := start1, counts := counts1,
                                 current_count_outer := some c1,
                                 output := output1 }
                      sess.peer none c1 [] sess.responses
               else consume st1 sess.peer none c [] sess.responses) := by
        intro st1 c hA hO1 hc
        obtain ⟨hA1, hA2, hA3, b, hb, hbv⟩ := hA
        by_cases hc0 : c = 0
        · subst hc0
          rw [if_pos rfl]
          have hyl := yieldLoop_exact sess.peer st1.stop st1.counts st1.start
            [] st1.output hA1 hA2 hA3 (by simpa using hc) hO1
          cases hy : yieldLoop sess.peer st1.stop st1.start [] st1.output
              st1.counts with
          | error r1 =>
              rw [hy] at hyl
              exact hyl
          | ok v =>
              obtain ⟨start1, counts1, c1, output1⟩ := v
              rw [hy] at hyl
              obtain ⟨k1, k2, k3, k4, k5, k6⟩ := hyl
              exact consume_exact sess.peer sess.responses
                ⟨start1, st1.stop, counts1, some c1, output1⟩ none c1 []
                ⟨k1, k2, k3, c1, rfl, k4⟩ k5
                (by
                  show counts0[start1 - start0]? = some (c1 + sumEvents [])
                  rw [k4]
                  rfl) k6
        · rw [if_neg hc0]
          exact consume_exact sess.peer sess.responses st1 none c []
            ⟨hA1, hA2, hA3, b, hb, hbv⟩ hO1 (by simpa using hc) (by omega)
      cases houter : st.current_count_outer with
      | some b =>
          have hA : Aligned start0 counts0 st := by
            rcases hinv with ⟨h, _⟩ | hA
            · rw [houter] at h; cases h
            · exact hA
          have hbv : counts0[st.start - start0]? = some b := by
            obtain ⟨_, _, _, b1, hb1, hb1v⟩ := hA
            rw [houter] at hb1
            cases hb1
            exact hb1v
          simp only [runFrom, runSession, houter, if_pos hA.2.1]
          exact hfold _ (hentry st b hA hO hbv)
      | none =>
          have hP : PreInv start0 counts0 st := by
            rcases hinv with hP | ⟨_, _, _, b1, hb1, _⟩
            · exact hP
            · rw [houter] at hb1; cases hb1
          obtain ⟨_, hstart, hcounts, hss⟩ := hP
          cases hc : st.counts with
          | nil =>
              simp only [runFrom, runSession, houter, hc]
              exact hO
          | cons c0 tl =>
              have hget0 : counts0[st.start - start0]? = some c0 := by
                rw [hstart, Nat.sub_self, ← hcounts, hc]
                simp
              have hdrop1 : tl = counts0.drop (st.start - start0 + 1) := by
                rw [hstart, Nat.sub_self, ← hcounts, hc]
                simp
              have hA1 : Aligned start0 counts0
                  { st with counts := tl, current_count_outer := some c0 } := by
                refine ⟨?_, ?_, ?_, c0, rfl, ?_⟩
                · show start0 ≤ st.start
                  omega
                · show st.start ≤ st.stop
                  exact hss
                · show tl = counts0.drop (st.start - start0 + 1)
                  exact hdrop1
                · show counts0[st.start - start0]? = some c0
                  exact hget0
              simp only [runFrom, runSession, houter, hc, if_pos hss]
              exact hfold _
                (hentry { st with counts := tl, current_count_outer := some c0 }
                  c0 hA1 hO hget0)

end EvExactCount

section StateDiffWeight

open StateDiffEngine

/-- Inserting under a different leading key commutes with the cons. -/
theorem insertKV_cons_ne {α : Type} (k0 : Nat) (v0 : α) (m : List (Nat × α))
    (k : Nat) (v : α) (h : k0 ≠ k) :
    insertKV ((k0, v0) :: m) k v = (k0, v0) :: insertKV m k v := by
  by_cases hm : m.any (fun p => p.1 = k)
  · simp [insertKV, hm, h]
  · simp [insertKV, hm, h]

/-- Replacement touches nothing when the key is absent. -/
theorem map_replace_of_not_mem {α : Type} (k : Nat) (v : α) :
    ∀ m : List (Nat × α), k ∉ keysOf m →
      m.map (fun p => if p.1 = k then (k, v) else p) = m := by
  intro m
  induction m with
  | nil => intro _; rfl
  | cons p m ih =>
      intro hk
      have h1 : p.1 ≠ k := by
        intro he
        exact hk (by simp [keysOf, he.symm])
      have h2 : k ∉ keysOf m := by
        intro hin
        exact hk (by simp [keysOf] at hin ⊢; exact Or.inr hin)
      simp [h1, ih h2]

/-- Inserting under the leading key replaces just that entry when the rest
of the map does not hold the key. -/
theorem insertKV_cons_eq {α : Type} (k : Nat) (v0 : α) (m : List (Nat × α))
    (v : α) (hk : k ∉ keysOf m) :
    insertKV ((k, v0) :: m) k v = (k, v) :: m := by
  simp [insertKV, map_replace_of_not_mem k v m hk]

/-- Insertion grows an association list by at most one entry. -/
theorem length_insertKV {α : Type} (m : List (Nat × α)) (k : Nat) (v : α) :
    (insertKV m k v).length ≤ m.length + 1 := by
  by_cases hm : m.any (fun p => p.1 = k)
  · simp [insertKV, hm]
  · simp [insertKV, hm]

/-- Insertion into a set grows it by at most one element. -/
theorem length_insertSet (s : List Nat) (x : Nat) :
    (insertSet s x).length ≤ s.length + 1 := by
  by_cases hx : x ∈ s
  · simp [insertSet, hx]
  · simp [insertSet, hx]

/-- Insertion preserves the absence of duplicate keys. -/
theorem nodup_keysOf_insertKV {α : Type} (m : List (Nat × α)) (k : Nat)
    (v : α) (h : (keysOf m).Nodup) : (keysOf (insertKV m k v)).Nodup := by
  by_cases hm : m.any (fun p => p.1 = k)
  · have hkeys : keysOf (insertKV m k v) = keysOf m := by
      simp only [insertKV, hm, if_true, keysOf, List.map_map]
      apply List.map_congr_left
      intro p _
      by_cases hp : p.1 = k
      · simp [hp]
      · simp [hp]
    rw [hkeys]
    exact h
  · have hk : k ∉ keysOf m := by
      intro hin
      simp only [keysOf, List.mem_map] at hin
      obtain ⟨p, hp, hpk⟩ := hin
      exact absurd (List.any_eq_true.mpr ⟨p, hp, by simp [hpk]⟩) hm
    have hkeys : keysOf (insertKV m k v) = keysOf m ++ [k] := by
      simp [insertKV, hm, keysOf]
    rw [hkeys]
    simp [List.nodup_append, h, hk]

/-- On a duplicate-free map, insertion exchanges the old entry's weight for
the new one's. -/
theorem weightMap_insertKV (k : Nat) (v : ContractUpdates) :
    ∀ m : List (Nat × ContractUpdates), (keysOf m).Nodup →
      weightMap (insertKV m k v) +
          cuWeight ((lookupKV m k).getD ContractUpdates.empty) =
        weightMap m + cuWeight v := by
  intro m
  induction m with
  | nil =>
      intro _
      simp [insertKV, weightMap, lookupKV, cuWeight, ContractUpdates.empty]
  | cons p m ih =>
      intro hnd
      obtain ⟨k0, cu0⟩ := p
      have hnd1 : (keysOf m).Nodup := by
        simpa [keysOf] using hnd.of_cons
      by_cases hk : k0 = k
      · subst hk
        have hk0 : k0 ∉ keysOf m := by
          simp only [keysOf, List.map_cons] at hnd
          exact (List.nodup_cons.mp hnd).1
        rw [insertKV_cons_eq k0 cu0 m v hk0]
        simp [weightMap, lookupKV]
        omega
      · rw [insertKV_cons_ne k0 cu0 m k v hk]
        have hlk : lookupKV ((k0, cu0) :: m) k = lookupKV m k := by
          simp [lookupKV, hk]
        rw [hlk]
        simp only [weightMap, List.map_cons, List.sum_cons]
        have := ih hnd1
        simp only [weightMap] at this
        omega

/-- The storage fold grows the map by at most one entry per write. -/
theorem foldl_insertKV_length_le (values : List ContractStoredValue) :
    ∀ s : List (Nat × Nat),
      (values.foldl (fun s v => insertKV s v.key v.value) s).length ≤
        s.length + values.length := by
  induction values with
  | nil => intro s; simp
  | cons v values ih =>
      intro s
      calc (values.foldl (fun s v => insertKV s v.key v.value)
              (insertKV s v.key v.value)).length
          ≤ (insertKV s v.key v.value).length + values.length := ih _
        _ ≤ s.length + 1 + values.length := by
              have := length_insertKV s v.key v.value
              omega
        _ = s.length + (v :: values).length := by simp; omega

/-- Applying a diff's storage writes leaves the nonce and the class update
untouched and adds at most one counted sub-item per write. -/
theorem applyValues_facts (cu : ContractUpdates)
    (values : List ContractStoredValue) :
    (applyValues cu values).nonce = cu.nonce ∧
    (applyValues cu values).class_update = cu.class_update ∧
    cuWeight (applyValues cu values) ≤ cuWeight cu + values.length := by
  refine ⟨rfl, rfl, ?_⟩
  simp only [cuWeight, applyValues]
  have := foldl_insertKV_length_le values cu.storage
  omega

end StateDiffWeight

section StateDiffWeightB

open StateDiffEngine

/-- The weight of the entry an insertion replaces is part of the map's
weight. -/
theorem cuWeight_lookup_le (k : Nat) :
    ∀ m : List (Nat × ContractUpdates),
      cuWeight ((lookupKV m k).getD ContractUpdates.empty) ≤ weightMap m := by
  intro m
  induction m with
  | nil => simp [lookupKV, cuWeight, ContractUpdates.empty, weightMap]
  | cons p m ih =>
      obtain ⟨k0, cu0⟩ := p
      by_cases hk : k0 = k
      · subst hk
        have hlk : lookupKV ((k0, cu0) :: m) k0 = some cu0 := by
          simp [lookupKV]
        rw [hlk]
        simp only [Option.getD_some, weightMap, List.map_cons, List.sum_cons]
        omega
      · have hlk : lookupKV ((k0, cu0) :: m) k = lookupKV m k := by
          simp [lookupKV, hk]
        rw [hlk]
        simp only [weightMap, List.map_cons, List.sum_cons]
        simp only [weightMap] at ih
        omega

/-- Insertion exchanges the replaced entry's weight for the new one's
(subtraction form, for rewriting). -/
theorem weightMap_insertKV_eq {v : ContractUpdates} (k : Nat)
    (m : List (Nat × ContractUpdates)) (hnd : (keysOf m).Nodup) :
    weightMap (insertKV m k v) =
      weightMap m + cuWeight v -
        cuWeight ((lookupKV m k).getD ContractUpdates.empty) := by
  have h1 := weightMap_insertKV k v m hnd
  have h2 := cuWeight_lookup_le k m
  omega

/-- Processing one countable item decrements the counter by at least the
number of sub-items it adds to the accumulator, and keeps the maps free of
duplicate keys. -/
theorem state_diff_item_step_weight :
    ∀ (c : Nat) (sd : StateUpdateData) (i : Item), NodupSD sd →
      match state_diff_item_step c sd i with
      | none => True
      | some (c1, sd1) =>
          c1 + sdWeight sd1 ≤ c + sdWeight sd ∧ NodupSD sd1 := by
  intro c sd i hnd
  cases i with
  | contractDiff d =>
      obtain ⟨addr, nonce, ch, values⟩ := d
      by_cases ha : addr = ContractAddressONE
      · cases h1 : checked_sub c values.length with
        | none => simp [state_diff_item_step, ha, h1]
        | some c1 =>
            obtain ⟨hle, hc1⟩ := checked_sub_some h1
            subst hc1
            simp only [state_diff_item_step, ha, h1, if_pos]
            constructor
            · simp only [sdWeight]
              rw [weightMap_insertKV_eq ContractAddressONE
                    sd.system_contract_updates hnd.1]
              have hlk := cuWeight_lookup_le ContractAddressONE
                sd.system_contract_updates
              obtain ⟨he1, he2, hb⟩ := applyValues_facts
                ((lookupKV sd.system_contract_updates ContractAddressONE).getD
                  ContractUpdates.empty) values
              omega
            · exact ⟨nodup_keysOf_insertKV _ _ _ hnd.1, hnd.2⟩
      · cases h1 : checked_sub c values.length with
        | none => simp [state_diff_item_step, ha, h1]
        | some c1 =>
            obtain ⟨hle1, hc1⟩ := checked_sub_some h1
            subst hc1
            cases nonce with
            | some n =>
                cases h2 : checked_sub (c - values.length) 1 with
                | none => simp [state_diff_item_step, ha, h1, h2]
                | some c2 =>
                    obtain ⟨hle2, hc2⟩ := checked_sub_some h2
                    subst hc2
                    cases ch with
                    | some v =>
                        cases h3 : checked_sub (c - values.length - 1) 1 with
                        | none => simp [state_diff_item_step, ha, h1, h2, h3]
                        | some c3 =>
                            obtain ⟨hle3, hc3⟩ := checked_sub_some h3
                            subst hc3
                            simp only [state_diff_item_step, ha, h1, h2, h3,
                              if_neg]
                            constructor
                            · simp only [sdWeight]
                              rw [weightMap_insertKV_eq addr
                                    sd.contract_updates hnd.2]
                              have hlk := cuWeight_lookup_le addr
                                sd.contract_updates
                              obtain ⟨he1, he2, hb⟩ := applyValues_facts
                                ((lookupKV sd.contract_updates addr).getD
                                  ContractUpdates.empty) values
                              simp [cuWeight, he1, he2] at hlk hb ⊢
                              omega
                            · exact ⟨hnd.1,
                                nodup_keysOf_insertKV _ _ _ hnd.2⟩
                    | none =>
                        simp only [state_diff_item_step, ha, h1, h2, if_neg]
                        constructor
                        · simp only [sdWeight]
                          rw [weightMap_insertKV_eq addr
                                sd.contract_updates hnd.2]
                          have hlk := cuWeight_lookup_le addr
                            sd.contract_updates
                          obtain ⟨he1, he2, hb⟩ := applyValues_facts
                            ((lookupKV sd.contract_updates addr).getD
                              ContractUpdates.empty) values
                          simp [cuWeight, he1, he2] at hlk hb ⊢
                          omega
                        · exact ⟨hnd.1, nodup_keysOf_insertKV _ _ _ hnd.2⟩
            | none =>
                cases ch with
                | some v =>
                    cases h2 : checked_sub (c - values.length) 1 with
                    | none => simp [state_diff_item_step, ha, h1, h2]
                    | some c2 =>
                        obtain ⟨hle2, hc2⟩ := checked_sub_some h2
                        subst hc2
                        simp only [state_diff_item_step, ha, h1, h2, if_neg]
                        constructor
                        · simp only [sdWeight]
                          rw [weightMap_insertKV_eq addr
                                sd.contract_updates hnd.2]
                          have hlk := cuWeight_lookup_le addr
                            sd.contract_updates
                          obtain ⟨he1, he2, hb⟩ := applyValues_facts
                            ((lookupKV sd.contract_updates addr).getD
                              ContractUpdates.empty) values
                          simp [cuWeight, he1, he2] at hlk hb ⊢
                          omega
                        · exact ⟨hnd.1, nodup_keysOf_insertKV _ _ _ hnd.2⟩
                | none =>
                    simp only [state_diff_item_step, ha, h1, if_neg]
                    constructor
                    · simp only [sdWeight]
                      rw [weightMap_insertKV_eq addr
                            sd.contract_updates hnd.2]
                      have hlk := cuWeight_lookup_le addr
                        sd.contract_updates
                      obtain ⟨he1, he2, hb⟩ := applyValues_facts
                        ((lookupKV sd.contract_updates addr).getD
                          ContractUpdates.empty) values
                      simp [cuWeight, he1, he2] at hlk hb ⊢
                      omega
                    · exact ⟨hnd.1, nodup_keysOf_insertKV _ _ _ hnd.2⟩
  | declaredClass d =>
      obtain ⟨chash, cch⟩ := d
      cases cch with
      | some v =>
          cases h1 : checked_sub c 1 with
          | none => simp [state_diff_item_step, h1]
          | some c1 =>
              obtain ⟨hle, hc1⟩ := checked_sub_some h1
              subst hc1
              simp only [state_diff_item_step, h1]
              constructor
              · simp only [sdWeight]
                have := length_insertKV sd.declared_sierra_classes chash v
                omega
              · exact ⟨hnd.1, hnd.2⟩
      | none =>
          cases h1 : checked_sub c 1 with
          | none => simp [state_diff_item_step, h1]
          | some c1 =>
              obtain ⟨hle, hc1⟩ := checked_sub_some h1
              subst hc1
              simp only [state_diff_item_step, h1]
              constructor
              · simp only [sdWeight]
                have := length_insertSet sd.declared_cairo_classes chash
                omega
              · exact ⟨hnd.1, hnd.2⟩

end StateDiffWeightB

section SdExactCount

open StateDiffEngine

/-- The empty accumulator records no sub-items. -/
theorem sdWeight_empty : sdWeight StateUpdateData.empty = 0 := rfl

/-- The empty accumulator has no duplicate keys. -/
theorem NodupSD_empty : NodupSD StateUpdateData.empty :=
  ⟨List.nodup_nil, List.nodup_nil⟩

/-- Appending a within-bound block to a within-bound output keeps it so. -/
theorem SdOutOK_append {start0 : Nat} {counts0 : List (Nat × Nat)}
    {out : List Yielded} (hO : OutOK start0 counts0 out) (it : Yielded)
    (h1 : start0 ≤ it.block)
    (h2 : ∃ d, (counts0[it.block - start0]?).map Prod.fst = some d ∧
      sdWeight it.state_diff ≤ d) :
    OutOK start0 counts0 (out ++ [it]) := by
  intro x hx
  rcases List.mem_append.mp hx with hx | hx
  · exact hO x hx
  · rcases List.mem_singleton.mp hx with rfl
    exact ⟨h1, h2⟩

/-- `yieldAdvance` of the state-diff engine yields a within-bound block and
re-establishes the invariants for the next block (or ends the run with only
within-bound blocks emitted). -/
theorem sd_yieldAdvance_exact {start0 : Nat} {counts0 : List (Nat × Nat)}
    (st : EngState) (p : Nat) (sdx : StateUpdateData)
    (hA : Aligned start0 counts0 st)
    (hO : OutOK start0 counts0 st.output)
    (hloc : ∃ d, (counts0[st.start - start0]?).map Prod.fst = some d ∧
      sdWeight sdx ≤ d) :
    match yieldAdvance st p sdx with
    | .error r => OutOK start0 counts0 r.output
    | .ok (st1, c1, sd1) =>
        Aligned start0 counts0 st1 ∧ OutOK start0 counts0 st1.output ∧
        WOK start0 counts0 st1 c1 sd1 ∧ NodupSD sd1 := by
  obtain ⟨h1, h2, h3, b, hb, hbval⟩ := hA
  have hOext : OutOK start0 counts0
      (st.output ++ [⟨p, st.current_commitment, sdx, st.start⟩]) :=
    SdOutOK_append hO _ h1 hloc
  by_cases hlt : st.start < st.stop
  · cases hc : st.counts with
    | nil =>
        simp only [yieldAdvance, hc, if_pos hlt]
        exact hOext
    | cons hd tl =>
        obtain ⟨cnt, cm⟩ := hd
        have hget : counts0[st.start - start0 + 1]? = some (cnt, cm) := by
          have := List.getElem?_drop counts0 (st.start - start0 + 1) 0
          rw [← h3, hc] at this
          simpa using this.symm
        have htl : tl = counts0.drop (st.start - start0 + 2) := by
          have := List.tail_drop counts0 (st.start - start0 + 1)
          rw [← h3, hc] at this
          simpa using this
        simp only [yieldAdvance, hc, if_pos hlt]
        have he : st.start + 1 - start0 = st.start - start0 + 1 := by omega
        refine ⟨⟨?_, ?_, ?_, cnt, rfl, ?_⟩, hOext, ⟨cnt, ?_, ?_⟩, NodupSD_empty⟩
        · show start0 ≤ st.start + 1
          omega
        · show st.start + 1 ≤ st.stop
          omega
        · show tl = counts0.drop (st.start + 1 - start0 + 1)
          rw [htl]
          congr 1
          omega
        · show (counts0[st.start + 1 - start0]?).map Prod.fst = some cnt
          rw [he, hget]
          rfl
        · show (counts0[st.start + 1 - start0]?).map Prod.fst = some cnt
          rw [he, hget]
          rfl
        · show cnt + sdWeight StateUpdateData.empty ≤ cnt
          rw [sdWeight_empty]
          omega
  · have hse : st.start = st.stop := by omega
    simp only [yieldAdvance, if_neg hlt]
    refine ⟨⟨h1, h2, h3, b, hb, hbval⟩, hOext, ⟨b, hbval, ?_⟩, NodupSD_empty⟩
    show 0 + sdWeight StateUpdateData.empty ≤ b
    rw [sdWeight_empty]
    omega

/-- The response loop of the state-diff engine preserves the invariants:
every block it yields is within its declared count, and the state it hands
to the next peer is aligned. -/
theorem sd_runResponses_exact {start0 : Nat} {counts0 : List (Nat × Nat)} :
    ∀ (resps : List Resp) (st : EngState) (p c : Nat) (sd : StateUpdateData),
      Aligned start0 counts0 st →
      OutOK start0 counts0 st.output →
      WOK start0 counts0 st c sd →
      NodupSD sd →
      StepOK start0 counts0 (runResponses st p c sd resps) := by
  intro resps
  induction resps with
  | nil =>
      intro st p c sd hA hO _ _
      exact ⟨hA, hO⟩
  | cons r rest ih =>
      intro st p c sd hA hO hloc hnd
      cases r with
      | contractDiff d =>
          cases hstep : state_diff_item_step c sd (.contractDiff d) with
          | none =>
              simp only [runResponses, hstep]
              exact hO
          | some v =>
              obtain ⟨c1, sd1⟩ := v
              have hw0 := state_diff_item_step_weight c sd (.contractDiff d) hnd
              rw [hstep] at hw0
              have hw : c1 + sdWeight sd1 ≤ c + sdWeight sd ∧ NodupSD sd1 := hw0
              obtain ⟨hwle, hnd1⟩ := hw
              obtain ⟨dcl, hdcl, hdle⟩ := hloc
              by_cases hc1 : c1 = 0
              · subst hc1
                have hya := sd_yieldAdvance_exact st p sd1 hA hO
                  ⟨dcl, hdcl, by omega⟩
                simp only [runResponses, hstep, if_pos rfl]
                cases hy : yieldAdvance st p sd1 with
                | error r1 => rw [hy] at hya; exact hya
                | ok v2 =>
                    obtain ⟨st1, c2, sd2⟩ := v2
                    rw [hy] at hya
                    exact ih st1 p c2 sd2 hya.1 hya.2.1 hya.2.2.1 hya.2.2.2
              · simp only [runResponses, hstep, if_neg hc1]
                exact ih st p c1 sd1 hA hO ⟨dcl, hdcl, by omega⟩ hnd1
      | declaredClass d =>
          cases hstep : state_diff_item_step c sd (.declaredClass d) with
          | none =>
              simp only [runResponses, hstep]
              exact hO
          | some v =>
              obtain ⟨c1, sd1⟩ := v
              have hw0 := state_diff_item_step_weight c sd (.declaredClass d) hnd
              rw [hstep] at hw0
              have hw : c1 + sdWeight sd1 ≤ c + sdWeight sd ∧ NodupSD sd1 := hw0
              obtain ⟨hwle, hnd1⟩ := hw
              obtain ⟨dcl, hdcl, hdle⟩ := hloc
              by_cases hc1 : c1 = 0
              · subst hc1
                have hya := sd_yieldAdvance_exact st p sd1 hA hO
                  ⟨dcl, hdcl, by omega⟩
                simp only [runResponses, hstep, if_pos rfl]
                cases hy : yieldAdvance st p sd1 with
                | error r1 => rw [hy] at hya; exact hya
                | ok v2 =>
                    obtain ⟨st1, c2, sd2⟩ := v2
                    rw [hy] at hya
                    exact ih st1 p c2 sd2 hya.1 hya.2.1 hya.2.2.1 hya.2.2.2
              · simp only [runResponses, hstep, if_neg hc1]
                exact ih st p c1 sd1 hA hO ⟨dcl, hdcl, by omega⟩ hnd1
      | fin =>
          by_cases hc : c = 0
          · subst hc
            by_cases hss : st.start = st.stop
            · simp only [runResponses, if_pos rfl, if_pos hss]
              exact hO
            · have hya := sd_yieldAdvance_exact st p sd hA hO
                (by
                  obtain ⟨dcl, hdcl, hdle⟩ := hloc
                  exact ⟨dcl, hdcl, by omega⟩)
              simp only [runResponses, if_pos rfl, if_neg hss]
              cases hy : yieldAdvance st p sd with
              | error r1 => rw [hy] at hya; exact hya
              | ok v2 =>
                  obtain ⟨st1, c2, sd2⟩ := v2
                  rw [hy] at hya
                  exact ih st1 p c2 sd2 hya.1 hya.2.1 hya.2.2.1 hya.2.2.2
          · simp only [runResponses, if_neg hc]
            exact ⟨hA, hO⟩

/-- The outer loop of the state-diff engine only ever emits blocks whose
recorded sub-items stay within the declared count. -/
theorem sd_runFrom_exact {start0 : Nat} {counts0 : List (Nat × Nat)} :
    ∀ (sessions : List Session) (st : EngState),
      (PreInv start0 counts0 st ∨ Aligned start0 counts0 st) →
      OutOK start0 counts0 st.output →
      OutOK start0 counts0 (runFrom st sessions).output := by
  intro sessions
  induction sessions with
  | nil => intro st _ hO; exact hO
  | cons sess rest ih =>
      intro st hinv hO
      cases houter : st.current_count_outer with
      | some b =>
          have hA : Aligned start0 counts0 st := by
            rcases hinv with ⟨h, _⟩ | hA
            · rw [houter] at h; cases h
            · exact hA
          have hbval : (counts0[st.start - start0]?).map Prod.fst = some b := by
            obtain ⟨_, _, _, b1, hb1, hb1v⟩ := hA
            rw [houter] at hb1
            cases hb1
            exact hb1v
          have hstep := sd_runResponses_exact sess.responses st sess.peer b
            StateUpdateData.empty hA hO
            ⟨b, hbval, by rw [sdWeight_empty]; omega⟩ NodupSD_empty
          simp only [runFrom, runSession, houter]
          cases hrr : runResponses st sess.peer b StateUpdateData.empty
              sess.responses with
          | brk r => rw [hrr] at hstep; exact hstep
          | nextPeer st1 =>
              rw [hrr] at hstep
              exact ih st1 (Or.inr hstep.1) hstep.2
      | none =>
          have hP : PreInv start0 counts0 st := by
            rcases hinv with hP | ⟨_, _, _, b1, hb1, _⟩
            · exact hP
            · rw [houter] at hb1; cases hb1
          obtain ⟨_, hstart, hcounts, hss⟩ := hP
          cases hc : st.counts with
          | nil =>
              simp only [runFrom, runSession, houter, hc]
              exact hO
          | cons hd tl =>
              obtain ⟨cnt, cm⟩ := hd
              have hA1 : Aligned start0 counts0
                  { st with counts := tl, current_count_outer := some cnt,
                            current_commitment := cm } := by
                refine ⟨?_, ?_, ?_, cnt, rfl, ?_⟩
                · show start0 ≤ st.start
                  omega
                · show st.start ≤ st.stop
                  exact hss
                · show tl = counts0.drop (st.start - start0 + 1)
                  rw [hstart, Nat.sub_self, ← hcounts, hc]
                  simp
                · show (counts0[st.start - start0]?).map Prod.fst = some cnt
                  rw [hstart, Nat.sub_self, ← hcounts, hc]
                  simp
              have hW1 : WOK start0 counts0
                  { st with counts := tl, current_count_outer := some cnt,
                            current_commitment := cm }
                  cnt StateUpdateData.empty := by
                refine ⟨cnt, ?_, by rw [sdWeight_empty]; omega⟩
                show (counts0[st.start - start0]?).map Prod.fst = some cnt
                rw [hstart, Nat.sub_self, ← hcounts, hc]
                simp
              have hstep := sd_runResponses_exact sess.responses _ sess.peer cnt
                StateUpdateData.empty hA1 hO hW1 NodupSD_empty
              simp only [runFrom, runSession, houter, hc]
              cases hrr : runResponses
                  { st with counts := tl, current_count_outer := some cnt,
                            current_commitment := cm }
                  sess.peer cnt StateUpdateData.empty sess.responses with
              | brk r => rw [hrr] at hstep; exact hstep
              | nextPeer st1 =>
                  rw [hrr] at hstep
                  exact ih st1 (Or.inr hstep.1) hstep.2

end SdExactCount

section ClExactCount

open ClassesEngine

/-- `countB` distributes over append. -/
theorem countB_append (b : Nat) (o1 o2 : List Yielded) :
    countB b (o1 ++ o2) = countB b o1 + countB b o2 := by
  simp [countB, List.filter_append]

/-- A yielded batch of definitions all declared in block `blk` contributes
its full length to block `blk` and nothing to any other block. -/
theorem countB_batch :
    ∀ (defs : List ClassDefinition) (peer blk : Nat),
      (∀ d ∈ defs, ClassDefinition.block_number d = blk) →
      ∀ b, countB b (defs.map (fun d => ⟨peer, d⟩)) =
        if b = blk then defs.length else 0 := by
  intro defs
  induction defs with
  | nil =>
      intro peer blk _ b
      by_cases hb : b = blk
      · simp [countB, hb]
      · simp [countB, hb]
  | cons d ds ih =>
      intro peer blk h b
      have hd : ClassDefinition.block_number d = blk := h d (by simp)
      have hrec := ih peer blk (fun x hx => h x (by simp [hx])) b
      by_cases hb : b = blk
      · subst hb
        rw [if_pos rfl] at hrec ⊢
        simp only [countB, List.map_cons, List.filter_cons] at hrec ⊢
        rw [if_pos (by simp [hd])]
        simp only [List.length_cons]
        omega
      · rw [if_neg hb] at hrec ⊢
        simp only [countB, List.map_cons, List.filter_cons] at hrec ⊢
        rw [if_neg (by simp only [decide_eq_true_eq, hd]; exact fun he => hb he.symm)]
        exact hrec

/-- A block whose declared count is zero can be marked completed without
touching the output. -/
theorem ClInv_extend_zero {start0 : Nat} {counts0 : List Nat} {bound : Nat}
    {out : List Yielded} (hs : start0 ≤ bound)
    (hCl : ClInv start0 counts0 bound out)
    (hz : counts0[bound - start0]? = some 0) :
    ClInv start0 counts0 (bound + 1) out := by
  obtain ⟨h1, h2, h3⟩ := hCl
  refine ⟨h1, ?_, ?_⟩
  · intro b hb
    exact h2 b (by omega)
  · intro b hb1 hb2
    by_cases hbb : b = bound
    · subst hbb
      rw [h2 b (Nat.le_refl _)]
      exact hz
    · exact h3 b hb1 (by omega)

/-- Completing the current block by appending a batch of exactly the
declared number of its definitions preserves the per-block exactness
invariant with the bound advanced. -/
theorem ClInv_complete {start0 : Nat} {counts0 : List Nat} {bound : Nat}
    {out : List Yielded} {batch : List Yielded} {c0 : Nat}
    (hs : start0 ≤ bound) (hCl : ClInv start0 counts0 bound out)
    (hc : counts0[bound - start0]? = some c0)
    (hb : ∀ b, countB b batch = if b = bound then c0 else 0) :
    ClInv start0 counts0 (bound + 1) (out ++ batch) := by
  obtain ⟨h1, h2, h3⟩ := hCl
  refine ⟨?_, ?_, ?_⟩
  · intro b hblt
    rw [countB_append, h1 b hblt, hb b, if_neg (by omega)]
  · intro b hbge
    rw [countB_append, h2 b (by omega), hb b, if_neg (by omega)]
  · intro b hb1 hb2
    by_cases hbb : b = bound
    · subst hbb
      rw [countB_append, hb b, if_pos rfl, h2 b (Nat.le_refl _),
        Nat.zero_add]
      exact hc
    · rw [countB_append, hb b, if_neg hbb, Nat.add_zero]
      exact h3 b hb1 (by omega)

/-- The zero-count advance region of the classes engine finishes the run
with the invariant intact, or re-establishes the alignment facts with a
positive counter. -/
theorem advanceLoop_exact {start0 : Nat} {counts0 : List Nat} (stop : Nat) :
    ∀ (counts : List Nat) (start : Nat) (output : List Yielded),
      start0 ≤ start → start ≤ stop →
      counts = counts0.drop (start - start0 + 1) →
      ClInv start0 counts0 (start + 1) output →
      (match advanceLoop stop start output counts with
       | .error r => ∃ bound, ClInv start0 counts0 bound r.output
       | .ok (start1, counts1, c1, output1) =>
           output1 = output ∧ start0 ≤ start1 ∧ start1 ≤ stop ∧
           counts1 = counts0.drop (start1 - start0 + 1) ∧
           counts0[start1 - start0]? = some c1 ∧ 0 < c1 ∧
           ClInv start0 counts0 start1 output1) := by
  intro counts
  induction counts with
  | nil =>
      intro start output h1 h2 h3 hCl
      by_cases hss : start = stop
      · simp only [advanceLoop, if_pos hss]
        exact ⟨start + 1, hCl⟩
      · simp only [advanceLoop, if_neg hss]
        exact ⟨start + 1, hCl⟩
  | cons c0 tl ih =>
      intro start output h1 h2 h3 hCl
      have hget : counts0[start - start0 + 1]? = some c0 := by
        have := List.getElem?_drop counts0 (start - start0 + 1) 0
        rw [← h3] at this
        simpa using this.symm
      have htl : tl = counts0.drop (start - start0 + 2) := by
        have := List.tail_drop counts0 (start - start0 + 1)
        rw [← h3] at this
        simpa using this
      have he : start + 1 - start0 = start - start0 + 1 := by omega
      cases c0 with
      | zero =>
          by_cases hss : start = stop
          · simp only [advanceLoop, if_pos hss]
            exact ⟨start + 1, hCl⟩
          · simp only [advanceLoop, if_neg hss]
            refine ih (start + 1) output (by omega) (by omega) ?_ ?_
            · rw [htl]
              congr 1
              omega
            · exact ClInv_extend_zero (by omega) hCl (by rw [he, hget])
      | succ k =>
          by_cases hss : start = stop
          · simp only [advanceLoop, if_pos hss]
            exact ⟨start + 1, hCl⟩
          · simp only [advanceLoop, if_neg hss]
            refine ⟨by trivial, by omega, by omega, ?_, ?_, by omega, hCl⟩
            · rw [htl]
              congr 1
              omega
            · rw [he, hget]

/-- The collect loop of the classes engine preserves the invariants: every
completed block yields exactly its declared number of definitions, and the
state handed to the next peer is aligned. -/
theorem collect_exact {start0 : Nat} {counts0 : List Nat} (p : Nat) :
    ∀ (resps : List Resp) (st : EngState) (cc : Nat)
      (cds : List ClassDefinition),
      start0 ≤ st.start → st.start ≤ st.stop →
      st.counts = counts0.drop (st.start - start0 + 1) →
      counts0[st.start - start0]? = some (cc + cds.length) →
      st.current_count_outer = some (cc + cds.length) →
      1 ≤ cc →
      (∀ d ∈ cds, ClassDefinition.block_number d = st.start) →
      ClInv start0 counts0 st.start st.output →
      StepOK start0 counts0 (collect st p cc cds resps) := by
  intro resps
  induction resps with
  | nil =>
      intro st cc cds h1 h2 h3 h4 h5 h6 h7 hCl
      exact ⟨⟨h1, h2, h3, cc + cds.length, h5, h4⟩, hCl⟩
  | cons r rest ih =>
      intro st cc cds h1 h2 h3 h4 h5 h6 h7 hCl
      have hstep :
          ∀ (defs : List ClassDefinition),
            (∀ d ∈ defs, ClassDefinition.block_number d = st.start) →
            defs.length = cds.length + 1 →
            StepOK start0 counts0
              (match cc - 1 with
               | 0 =>
                   match advanceLoop st.stop st.start
                       (st.output ++ defs.map (fun d => ⟨p, d⟩))
                       st.counts with
                   | .error r => .brk r
                   | .ok (start1, counts1, c1, output1) =>
                       collect
                         { st with start := start1, counts := counts1,
                                   current_count_outer := some c1,
                                   output := output1 }
                         p c1 [] rest
               | k + 1 => collect st p (k + 1) defs rest) := by
        intro defs hdefs hlen
        cases hcm : cc - 1 with
        | zero =>
            have hcc : cc = 1 := by omega
            have hc0 : counts0[st.start - start0]? = some defs.length := by
              rw [h4, hlen, hcc, Nat.add_comm]
            have hClx : ClInv start0 counts0 (st.start + 1)
                (st.output ++ defs.map (fun d => ⟨p, d⟩)) :=
              ClInv_complete h1 hCl hc0 (countB_batch defs p st.start hdefs)
            have hadv := advanceLoop_exact st.stop st.counts st.start
              (st.output ++ defs.map (fun d => ⟨p, d⟩)) h1 h2 h3 hClx
            cases hy : advanceLoop st.stop st.start
                (st.output ++ defs.map (fun d => ⟨p, d⟩)) st.counts with
            | error r1 =>
                rw [hy] at hadv
                exact hadv
            | ok v =>
                obtain ⟨start1, counts1, c1, output1⟩ := v
                rw [hy] at hadv
                obtain ⟨k0, k1, k2, k3, k4, k5, k6⟩ := hadv
                refine ih ⟨start1, st.stop, counts1, some c1, output1⟩ c1 []
                  k1 k2 k3 ?_ ?_ (by omega) (by simp) k6
                · show counts0[start1 - start0]? = some (c1 + 0)
                  rw [k4, Nat.add_zero]
                · show some c1 = some (c1 + 0)
                  rfl
        | succ k =>
            refine ih st (k + 1) defs h1 h2 h3 ?_ ?_ (by omega) hdefs hCl
            · rw [h4]
              simp only [Option.some.injEq]
              omega
            · rw [h5]
              simp only [Option.some.injEq]
              omega
      cases r with
      | fin => exact ⟨⟨h1, h2, h3, cc + cds.length, h5, h4⟩, hCl⟩
      | cairo0 bts =>
          simp only [collect]
          exact hstep (cds ++ [ClassDefinition.Cairo st.start bts])
            (by
              intro d hd
              rcases List.mem_append.mp hd with hd | hd
              · exact h7 d hd
              · rcases List.mem_singleton.mp hd with rfl
                rfl)
            (by simp)
      | cairo1 bts =>
          simp only [collect]
          exact hstep (cds ++ [ClassDefinition.Sierra st.start bts])
            (by
              intro d hd
              rcases List.mem_append.mp hd with hd | hd
              · exact h7 d hd
              · rcases List.mem_singleton.mp hd with rfl
                rfl)
            (by simp)

/-- The outer loop of the classes engine only ever completes blocks with
exactly the declared number of definitions per block. -/
theorem cl_runFrom_exact {start0 : Nat} {counts0 : List Nat} :
    ∀ (sessions : List Session) (st : EngState),
      (PreInv start0 counts0 st ∨ Aligned start0 counts0 st) →
      ClInv start0 counts0 st.start st.output →
      ∃ bound, ClInv start0 counts0 bound (runFrom st sessions).output := by
  intro sessions
  induction sessions with
  | nil => intro st _ hCl; exact ⟨st.start, hCl⟩
  | cons sess rest ih =>
      intro st hinv hCl
      have hcont :
          ∀ st1 : EngState, StepOK start0 counts0 (.nextPeer st1) →
            ∃ bound, ClInv start0 counts0 bound (runFrom st1 rest).output :=
        fun st1 hs => ih st1 (Or.inr hs.1) hs.2
      have hfold :
          ∀ s1 : SessStep, StepOK start0 counts0 s1 →
            ∃ bound, ClInv start0 counts0 bound
              (match s1 with
               | .brk r => r
               | .nextPeer st1 => runFrom st1 rest).output := by
        intro s1 hs
        cases s1 with
        | brk r => exact hs
        | nextPeer st1 => exact hcont st1 hs
      have hentry :
          ∀ (st1 : EngState) (c : Nat),
            Aligned start0 counts0 st1 →
            ClInv start0 counts0 st1.start st1.output →
            counts0[st1.start - start0]? = some c →
            StepOK start0 counts0
              (if c = 0 then
                 match advanceLoop st1.stop st1.start st1.output st1.counts with
                 | .error r => .brk r
                 | .ok (start1, counts1, c1, output1) =>
                     collect
                       { st1 with start := start1, counts := counts1,
                                  current_count_outer := some c1,
                                  output := output1 }
                       sess.peer c1 [] sess.responses
               else collect st1 sess.peer c [] sess.responses) := by
        intro st1 c hA hCl1 hc
        obtain ⟨hA1, hA2, hA3, b, hb, hbv⟩ := hA
        by_cases hc0 : c = 0
        · subst hc0
          rw [if_pos rfl]
          have hClx : ClInv start0 counts0 (st1.start + 1) st1.output :=
            ClInv_extend_zero hA1 hCl1 hc
          have hadv := advanceLoop_exact st1.stop st1.counts st1.start
            st1.output hA1 hA2 hA3 hClx
          cases hy : advanceLoop st1.stop st1.start st1.output st1.counts with
          | error r1 =>
              rw [hy] at hadv
              exact hadv
          | ok v =>
              obtain ⟨start1, counts1, c1, output1⟩ := v
              rw [hy] at hadv
              obtain ⟨k0, k1, k2, k3, k4, k5, k6⟩ := hadv
              exact collect_exact sess.peer sess.responses
                ⟨start1, st1.stop, counts1, some c1, output1⟩ c1 []
                k1 k2 k3 (by rw [k4]; simp) (by simp) (by omega) (by simp) k6
        · rw [if_neg hc0]
          have hbc : b = c := by
            rw [hbv] at hc
            exact Option.some.inj hc
          refine collect_exact sess.peer sess.responses st1 c []
            hA1 hA2 hA3 ?_ ?_ (by omega) (by simp) hCl1
          · rw [hc]
            simp
          · rw [hb, hbc]
            simp
      cases houter : st.current_count_outer with
      | some b =>
          have hA : Aligned start0 counts0 st := by
            rcases hinv with ⟨h, _⟩ | hA
            · rw [houter] at h; cases h
            · exact hA
          have hbv : counts0[st.start - start0]? = some b := by
            obtain ⟨_, _, _, b1, hb1, hb1v⟩ := hA
            rw [houter] at hb1
            cases hb1
            exact hb1v
          simp only [runFrom, runSession, houter, if_pos hA.2.1]
          exact hfold _ (hentry st b hA hCl hbv)
      | none =>
          have hP : PreInv start0 counts0 st := by
            rcases hinv with hP | ⟨_, _, _, b1, hb1, _⟩
            · exact hP
            · rw [houter] at hb1; cases hb1
          obtain ⟨_, hstart, hcounts, hss⟩ := hP
          cases hc : st.counts with
          | nil =>
              simp only [runFrom, runSession, houter, hc]
              exact ⟨st.start, hCl⟩
          | cons c0 tl =>
              have hget0 : counts0[st.start - start0]? = some c0 := by
                rw [hstart, Nat.sub_self, ← hcounts, hc]
                simp
              have hdrop1 : tl = counts0.drop (st.start - start0 + 1) := by
                rw [hstart, Nat.sub_self, ← hcounts, hc]
                simp
              have hA1 : Aligned start0 counts0
                  { st with counts := tl, current_count_outer := some c0 } := by
                refine ⟨?_, ?_, ?_, c0, rfl, ?_⟩
                · show start0 ≤ st.start
                  omega
                · show st.start ≤ st.stop
                  exact hss
                · show tl = counts0.drop (st.start - start0 + 1)
                  exact hdrop1
                · show counts0[st.start - start0]? = some c0
                  exact hget0
              simp only [runFrom, runSession, houter, hc, if_pos hss]
              exact hfold _
                (hentry { st with counts := tl, current_count_outer := some c0 }
                  c0 hA1 hCl hget0)

end ClExactCount

section ExactCountClaim

/-- Claim C2, corrected: a stream engine yields a block only at the moment
its remaining counter reaches exactly zero, so a partially accumulated block
is never yielded, and for the transaction, events and classes engines the
number of countable sub-items accumulated into every yielded block's payload
equals the count obtained from the auxiliary count stream for that block —
but for the state-diff engine the payload records the sub-items in
`HashMap`/`HashSet` accumulators whose last-write-wins insertion collapses
duplicate writes, so its payload's sub-item count is only bounded above by
the declared count (the counter itself is still decremented once per
processed sub-item and the yield still fires exactly at zero).  The
statements hold for every item of every run, across peer switches, premature
`Fin`s, disconnects, over-count terminations, count-stream exhaustion and
(for the events engine) the panic path. -/
theorem exact_counts_per_yielded_block :
    (∀ (start stop : Nat) (counts : List (Nat × Nat))
       (sessions : List TxEngine.Session) (it : TxEngine.Yielded),
        it ∈ (TxEngine.make_transaction_stream start stop counts
            sessions).output →
        start ≤ it.block ∧
        (counts[it.block - start]?).map Prod.fst =
          some it.transactions.length)
    ∧ (∀ (start stop : Nat) (counts : List (Nat × Nat))
       (sessions : List StateDiffEngine.Session)
       (it : StateDiffEngine.Yielded),
        it ∈ (StateDiffEngine.make_state_diff_stream start stop counts
            sessions).output →
        start ≤ it.block ∧
        ∃ d, (counts[it.block - start]?).map Prod.fst = some d ∧
          StateDiffEngine.sdWeight it.state_diff ≤ d)
    ∧ (∀ (start stop : Nat) (counts : List Nat)
       (sessions : List EvEngine.Session) (it : EvEngine.Yielded),
        it ∈ (EvEngine.make_event_stream start stop counts sessions).output →
        start ≤ it.block ∧
        counts[it.block - start]? = some (EvEngine.sumEvents it.events))
    ∧ (∀ (start stop : Nat) (counts : List Nat)
       (sessions : List ClassesEngine.Session) (b : Nat),
        0 < ClassesEngine.countB b
            (ClassesEngine.make_class_definition_stream start stop counts
              sessions).output →
        start ≤ b ∧
        counts[b - start]? = some (ClassesEngine.countB b
          (ClassesEngine.make_class_definition_stream start stop counts
            sessions).output)) := by
  refine ⟨?_, ?_, ?_, ?_⟩
  · intro start stop counts sessions it hit
    by_cases hss : start ≤ stop
    · simp only [TxEngine.make_transaction_stream, if_pos hss] at hit
      exact runFrom_exact sessions ⟨start, stop, counts, none, 0, []⟩
        (Or.inl ⟨rfl, rfl, rfl, hss⟩)
        (by intro x hx; exact absurd hx (List.not_mem_nil x)) it hit
    · simp only [TxEngine.make_transaction_stream, if_neg hss] at hit
      exact absurd hit (List.not_mem_nil it)
  · intro start stop counts sessions it hit
    by_cases hss : start ≤ stop
    · simp only [StateDiffEngine.make_state_diff_stream, if_pos hss] at hit
      exact sd_runFrom_exact sessions ⟨start, stop, counts, none, 0, []⟩
        (Or.inl ⟨rfl, rfl, rfl, hss⟩)
        (by intro x hx; exact absurd hx (List.not_mem_nil x)) it hit
    · simp only [StateDiffEngine.make_state_diff_stream, if_neg hss] at hit
      exact absurd hit (List.not_mem_nil it)
  · intro start stop counts sessions it hit
    by_cases hss : start ≤ stop
    · simp only [EvEngine.make_event_stream, if_pos hss] at hit
      exact ev_runFrom_exact sessions ⟨start, stop, counts, none, []⟩
        (Or.inl ⟨rfl, rfl, rfl, hss⟩)
        (by intro x hx; exact absurd hx (List.not_mem_nil x)) it hit
    · simp only [EvEngine.make_event_stream, if_neg hss] at hit
      exact absurd hit (List.not_mem_nil it)
  · intro start stop counts sessions b hb
    by_cases hss : start ≤ stop
    · simp only [ClassesEngine.make_class_definition_stream, if_pos hss]
        at hb ⊢
      have hCl0 : ClassesEngine.ClInv start counts start [] :=
        ⟨fun b _ => rfl, fun b _ => rfl,
         fun b hb1 hb2 => absurd hb2 (by omega)⟩
      obtain ⟨bound, h1, h2, h3⟩ := @cl_runFrom_exact start counts sessions
        ⟨start, stop, counts, none, []⟩ (Or.inl ⟨rfl, rfl, rfl, hss⟩) hCl0
      have hge : start ≤ b := by
        by_contra hlt
        rw [h1 b (by omega)] at hb
        exact absurd hb (by omega)
      have hltb : b < bound := by
        by_contra hge2
        rw [h2 b (by omega)] at hb
        exact absurd hb (by omega)
      exact ⟨hge, h3 b hge hltb⟩
    · simp only [ClassesEngine.make_class_definition_stream, if_neg hss] at hb
      exact absurd hb (by simp [ClassesEngine.countB])

/-- Claim C2 counterexample (to the unqualified per-engine equality): with a
declared count of 2, a peer sends one contract diff carrying two storage
writes to the same key of the same contract; the counter is decremented once
per write and reaches zero, but the writes collapse under last-write-wins
insertion, so the yielded block's payload records 1 sub-item, not the
declared 2. -/
theorem state_diff_duplicate_key_undercounts_payload :
    ∃ it ∈ (StateDiffEngine.make_state_diff_stream 0 0 [(2, 77)]
        [⟨1, [.contractDiff ⟨5, none, none, [⟨9, 1⟩, ⟨9, 2⟩]⟩, .fin]⟩]).output,
      ¬ (([((2 : Nat), (77 : Nat))] : List (Nat × Nat))[it.block - 0]?).map
          Prod.fst = some (StateDiffEngine.sdWeight it.state_diff) := by
  decide

/-- Claim C2 witness: concrete runs of all four engines — a one-block
transaction run with declared count 1, a one-block state-diff run with two
distinct storage writes against a declared count of 2, a one-block event run
with declared count 2, and a one-block classes run with declared count 2 —
evaluated concretely. -/
theorem exact_counts_per_yielded_block_witness :
    ((0 : Nat) ≤ 0 ∧
      (([(1, 9)] : List (Nat × Nat))[(0 : Nat) - 0]?).map Prod.fst =
        some ([5] : List Nat).length)
    ∧ ((0 : Nat) ≤ 0 ∧
      ∃ d, (([(2, 9)] : List (Nat × Nat))[(0 : Nat) - 0]?).map Prod.fst =
          some d ∧
        StateDiffEngine.sdWeight
          ⟨[], [(5, ⟨[(7, 1), (8, 2)], none, none⟩)], [], []⟩ ≤ d)
    ∧ ((0 : Nat) ≤ 0 ∧
      ([2] : List Nat)[(0 : Nat) - 0]? =
        some (EvEngine.sumEvents [(1, [10]), (2, [20])]))
    ∧ ((0 : Nat) ≤ 0 ∧
      ([2] : List Nat)[(0 : Nat) - 0]? =
        some (ClassesEngine.countB 0
          (ClassesEngine.make_class_definition_stream 0 0 [2]
            [⟨3, [.cairo0 10, .cairo1 11, .fin]⟩]).output)) :=
  ⟨exact_counts_per_yielded_block.1 0 0 [(1, 9)] [⟨1, [.txn 5, .fin]⟩]
      ⟨1, 9, [5], 0⟩ (by decide),
   exact_counts_per_yielded_block.2.1 0 0 [(2, 9)]
      [⟨1, [.contractDiff ⟨5, none, none, [⟨7, 1⟩, ⟨8, 2⟩]⟩, .fin]⟩]
      ⟨1, 9, ⟨[], [(5, ⟨[(7, 1), (8, 2)], none, none⟩)], [], []⟩, 0⟩
      (by decide),
   exact_counts_per_yielded_block.2.2.1 0 0 [2]
      [⟨7, [.event 1 10, .event 2 20, .fin]⟩]
      ⟨7, 0, [(1, [10]), (2, [20])]⟩ (by decide),
   exact_counts_per_yielded_block.2.2.2 0 0 [2]
      [⟨3, [.cairo0 10, .cairo1 11, .fin]⟩] 0 (by decide)⟩

end ExactCountClaim

section PedersenTheorems

open Pedersen

set_option maxRecDepth 4096 in
/-- Recomposing the eight bits of a byte gives the byte back. -/
theorem byteVal_byteBits_fin : ∀ b : Fin 256, byteVal (byteBits b.val) = b.val := by
  decide

/-- Recomposing the eight bits of a byte gives the byte back. -/
theorem byteVal_byteBits {b : Nat} (h : b < 256) : byteVal (byteBits b) = b :=
  byteVal_byteBits_fin ⟨b, h⟩

/-- The full bit view distributes over the leading byte. -/
theorem bytesBits_cons (b : Nat) (l : List Nat) :
    bytesBits (b :: l) = byteBits b ++ bytesBits l := by
  simp [bytesBits]

/-- Each byte contributes eight bits to the view. -/
theorem bytesBits_length : ∀ l : List Nat, (bytesBits l).length = 8 * l.length := by
  intro l
  induction l with
  | nil => rfl
  | cons b l ih =>
      rw [bytesBits_cons, List.length_append, ih]
      simp [byteBits]
      omega

/-- Repacking the full bit view of a byte string gives the bytes back. -/
theorem bitsToBytes_bytesBits :
    ∀ l : List Nat, (∀ b ∈ l, b < 256) → bitsToBytes (bytesBits l) = l := by
  intro l
  induction l with
  | nil => intro _; rfl
  | cons b l ih =>
      intro hb
      rw [bytesBits_cons]
      show bitsToBytes
        (b.testBit 7 :: b.testBit 6 :: b.testBit 5 :: b.testBit 4 ::
         b.testBit 3 :: b.testBit 2 :: b.testBit 1 :: b.testBit 0 ::
         bytesBits l) = b :: l
      rw [bitsToBytes]
      rw [ih (fun x hx => hb x (List.mem_cons_of_mem b hx))]
      congr 1
      exact byteVal_byteBits (hb b (List.mem_cons_self b l))

/-- A byte below 8 has its top five bits clear, so its bit view starts with
five `false`s. -/
theorem byteBits_of_lt_8 {b : Nat} (h : b < 8) :
    byteBits b = List.replicate 5 false ++ (byteBits b).drop 5 := by
  have h7 : b.testBit 7 = false := Nat.testBit_eq_false_of_lt (by omega)
  have h6 : b.testBit 6 = false := Nat.testBit_eq_false_of_lt (by omega)
  have h5 : b.testBit 5 = false := Nat.testBit_eq_false_of_lt (by omega)
  have h4 : b.testBit 4 = false := Nat.testBit_eq_false_of_lt (by omega)
  have h3 : b.testBit 3 = false := Nat.testBit_eq_false_of_lt (by omega)
  simp [byteBits, h7, h6, h5, h4, h3, List.replicate]

/-- Claim C10: for every 251-bit value — a 32-byte big-endian array whose
top 5 bits are zero, i.e. whose leading byte is below 8 —
`from_be_bytes` accepts it and
`from_bits (view_bits (from_be_bytes x)) = from_be_bytes x`; and
`from_be_bytes` returns `OverflowError` for every 32-byte input in which any
of the top 5 bits is nonzero (leading byte at least 8). -/
theorem stark_hash_bits_round_trip :
    (∀ bytes : List Nat, WfBytes32 bytes → bytes.headD 0 < 8 →
      from_be_bytes bytes = .ok bytes ∧
      from_bits (view_bits bytes) = .ok bytes)
    ∧ (∀ bytes : List Nat, WfBytes32 bytes → 8 ≤ bytes.headD 0 →
      from_be_bytes bytes = .error .mk) := by
  constructor
  · intro bytes hwf hhead
    obtain ⟨hlen, hlt⟩ := hwf
    constructor
    · simp only [from_be_bytes]
      rw [if_pos (by omega)]
    · obtain ⟨b0, rest, rfl⟩ : ∃ b0 rest, bytes = b0 :: rest := by
        cases bytes with
        | nil => simp at hlen
        | cons b0 rest => exact ⟨b0, rest, rfl⟩
      have hb0 : b0 < 8 := by simpa using hhead
      have hrest : rest.length = 31 := by simpa using hlen
      have hviewlen : (view_bits (b0 :: rest)).length = 251 := by
        simp only [view_bits, List.length_drop, bytesBits_length]
        rw [hlen]
      have hfull :
          List.replicate 5 false ++ view_bits (b0 :: rest) =
            bytesBits (b0 :: rest) := by
        simp only [view_bits, bytesBits_cons]
        rw [List.drop_append_of_le_length (by simp [byteBits])]
        rw [← List.append_assoc]
        congr 1
        conv_rhs => rw [byteBits_of_lt_8 hb0]
      simp only [from_bits, hviewlen]
      rw [if_neg (by omega)]
      rw [show 256 - 251 = 5 from rfl, hfull,
          bitsToBytes_bytesBits _ hlt]
  · intro bytes hwf hhead
    simp only [from_be_bytes]
    rw [if_neg (by omega)]

/-- Claim C10 witness: the byte string `7, 255, …, 255` (the largest
251-bit value) round-trips through `view_bits`/`from_bits`, and setting the
252nd bit (leading byte 8) is rejected by `from_be_bytes`. -/
theorem stark_hash_bits_round_trip_witness :
    (from_be_bytes (7 :: List.replicate 31 255) =
        .ok (7 :: List.replicate 31 255) ∧
      from_bits (view_bits (7 :: List.replicate 31 255)) =
        .ok (7 :: List.replicate 31 255))
    ∧ from_be_bytes (8 :: List.replicate 31 0) = .error .mk :=
  ⟨stark_hash_bits_round_trip.1 (7 :: List.replicate 31 255)
      ⟨by decide, by decide⟩ (by decide),
   stark_hash_bits_round_trip.2 (8 :: List.replicate 31 0)
      ⟨by decide, by decide⟩ (by decide)⟩

end PedersenTheorems
